import Mathlib

/-!
# Verification of the `GameConfig` options parser/serializer

Shallow embedding of the configuration core of `scripts/manage.py`
(class `GameConfig`): the character-by-character options lexer
(`_parse_options`), the type classifier, the insertion-ordered value
store (a Python `dict`), the serializer (`save`), the loader (`load`)
and the accessors `get`/`set`.

Python strings are modelled as `List Char`; a Python `dict` is an
insertion-ordered association list (`dinsert` models `d[k] = v`).
Exceptions are modelled with `Except PErr`.  Python `float` objects are
kept abstract: a classified float stores the raw source text that
`float()` accepted, and the serializer takes the textual rendering
`str(float(..))` as an explicit function parameter `fstr`, since
binary64 shortest-round-trip formatting is outside the embedding.
`str.isdigit`/`int()` are modelled on decimal ASCII digits (exotic
Unicode digit-property characters are outside the model).
-/

namespace PalConfig

abbrev Chars := List Char

/-- Python `str.strip()` whitespace (the `str.isspace` set): tab through
carriage return, the separator controls `'\x1c'`-`'\x1f'`, space, NEL,
NBSP and the Unicode space-category code points. -/
def pyIsSpace (c : Char) : Bool :=
  decide ((9 ≤ c.toNat ∧ c.toNat ≤ 13) ∨ (28 ≤ c.toNat ∧ c.toNat ≤ 32) ∨
    c.toNat = 133 ∨ c.toNat = 160 ∨ c.toNat = 5760 ∨
    (8192 ≤ c.toNat ∧ c.toNat ≤ 8202) ∨ c.toNat = 8232 ∨ c.toNat = 8233 ∨
    c.toNat = 8239 ∨ c.toNat = 8287 ∨ c.toNat = 12288)

/-- Python `s.strip()`: remove leading and trailing whitespace. -/
def pyStrip (l : Chars) : Chars :=
  ((l.dropWhile pyIsSpace).reverse.dropWhile pyIsSpace).reverse

/-- Python `s.strip('"')`: remove all leading and trailing double quotes. -/
def pyStripQuote (l : Chars) : Chars :=
  ((l.dropWhile (· = '"')).reverse.dropWhile (· = '"')).reverse

/-- Python `s.lower()` (ASCII). -/
def pyLower (l : Chars) : Chars := l.map Char.toLower

/-- Python `s.isdigit()` on decimal digits: nonempty and all digits. -/
def pyIsDigit (l : Chars) : Bool := !l.isEmpty && l.all Char.isDigit

/-- Python `int(s)` for an all-decimal-digit string. -/
def strToNat (l : Chars) : Nat :=
  l.foldl (fun n c => 10 * n + (c.toNat - '0'.toNat)) 0

/-- Python `s.split(sep)` for a one-character separator: always returns
at least one (possibly empty) piece. -/
def pySplit (sep : Char) : Chars → List Chars
  | [] => [[]]
  | c :: rest =>
    match pySplit sep rest with
    | [] => [[]]
    | g :: gs => if c = sep then [] :: g :: gs else (c :: g) :: gs

/-- Python `sep.join(xs)` for a one-character separator. -/
def pyJoin (sep : Char) : List Chars → Chars
  | [] => []
  | [x] => x
  | x :: y :: xs => x ++ sep :: pyJoin sep (y :: xs)

/-- Python `s.startswith(p)`. -/
def startsWith : Chars → Chars → Bool
  | [], _ => true
  | _ :: _, [] => false
  | p :: ps, c :: cs => p = c && startsWith ps cs

/-- Decimal digits of a natural number, with enough fuel to terminate
(structural recursion so that the kernel can evaluate it). -/
def natToCharsFuel : Nat → Nat → Chars
  | 0, _ => []
  | fuel + 1, n =>
    if n < 10 then [Char.ofNat ('0'.toNat + n)]
    else natToCharsFuel fuel (n / 10) ++ [Char.ofNat ('0'.toNat + n % 10)]

/-- Decimal digits of a natural number (`str(n)` for `n ≥ 0`). -/
def natToChars (n : Nat) : Chars := natToCharsFuel (n + 1) n

/-- Python `str(n)` for an `int`. -/
def intToChars (n : Int) : Chars :=
  if n < 0 then '-' :: natToChars (-n).toNat else natToChars n.toNat

/-! ## The domain of Python `float()` (lexical grammar)

`float(s)` accepts, after stripping whitespace: an optional sign, then
either `inf`/`infinity`/`nan` (case-insensitive) or a decimal literal
`digitpart? "." digitpart | digitpart "."? ` with an optional
`(e|E) sign? digitpart` exponent, where a digitpart is digits possibly
separated by single underscores.  Only acceptance is modelled, never
the binary64 value. -/

/-- Consume a digitpart (`digit (("_")? digit)*`) from the front;
`none` when no leading digit. -/
def digitsU : Chars → Option Chars
  | c :: rest => if c.isDigit then some (digitsURest rest) else none
  | [] => none
where
  digitsURest : Chars → Chars
    | '_' :: c :: rest => if c.isDigit then digitsURest rest else '_' :: c :: rest
    | c :: rest => if c.isDigit then digitsURest rest else c :: rest
    | [] => []

/-- An exponent part consuming the entire rest of the input. -/
def expAfter (l : Chars) : Bool :=
  match digitsU l with
  | some [] => true
  | _ => false

/-- Optional exponent: empty, or `(e|E) sign? digitpart`. -/
def expPart : Chars → Bool
  | [] => true
  | c :: rest =>
    if c = 'e' || c = 'E' then
      match rest with
      | '+' :: r => expAfter r
      | '-' :: r => expAfter r
      | r => expAfter r
    else false

/-- Finite float literal body (after the optional sign). -/
def floatFinite (l : Chars) : Bool :=
  match digitsU l with
  | some r1 =>
    match r1 with
    | '.' :: r2 =>
      match digitsU r2 with
      | some r3 => expPart r3
      | none => expPart r2
    | _ => expPart r1
  | none =>
    match l with
    | '.' :: r2 =>
      match digitsU r2 with
      | some r3 => expPart r3
      | none => false
    | _ => false

/-- `inf`, `infinity` or `nan`, case-insensitive. -/
def infNan (l : Chars) : Bool :=
  pyLower l = "inf".data || pyLower l = "infinity".data || pyLower l = "nan".data

/-- Whether Python `float(s)` succeeds (ASCII model). -/
def pyFloatAccepts (s : Chars) : Bool :=
  let t := pyStrip s
  let body := match t with
    | '+' :: r => r
    | '-' :: r => r
    | r => r
  infNan body || floatFinite body

/-! ## Data model -/

/-- Modelled Python exceptions raised by the configuration core. -/
inductive PErr where
  | indexError
  | valueError
  | typeError
  | attributeError
deriving Repr, DecidableEq

/-- The Python runtime values stored in `self.config` entries.  A float
is identified by the raw text accepted by `float()`; its binary64 value
is abstract. -/
inductive PyObj where
  | pyBool (b : Bool)
  | pyInt (n : Int)
  | pyFloat (raw : Chars)
  | pyStr (s : Chars)
  | pyList (elems : List Chars)
deriving Repr, DecidableEq

/-- A store entry: `self.config[key] = [tag, obj]`.  Keys of the
`values` dict can be `None` in the source (a `,` before any `=`), hence
`Option Chars`. -/
abbrev Config := List (Option Chars × (String × PyObj))

/-- Ordered-dict assignment `d[k] = v`: overwrite in place, else append
(Python 3.7+ dict semantics). -/
def dinsert {K V : Type} [DecidableEq K] (m : List (K × V)) (k : K) (v : V) :
    List (K × V) :=
  if m.any (fun p => p.1 = k) then
    m.map (fun p => if p.1 = k then (k, v) else p)
  else m ++ [(k, v)]

/-! ## Lexer (`_parse_options` tokenizer loop) -/

/-- Local state of the tokenizer loop in `_parse_options`. -/
structure LexSt where
  buffer : Chars
  values : List (Option Chars × Chars)
  in_group : Bool
  group : Option Char
  key : Option Chars
deriving Repr, DecidableEq

def lexInit : LexSt := ⟨[], [], false, none, none⟩

/-- One iteration of `for character in options`. -/
def lexStep (st : LexSt) (character : Char) : LexSt :=
  if character = '=' && !st.in_group then
    { st with key := some (pyStrip st.buffer), buffer := [] }
  else if character = ',' && !st.in_group then
    { st with values := dinsert st.values st.key (pyStrip st.buffer), buffer := [] }
  else if character = '"' && !st.in_group then
    { st with in_group := true, group := some '"', buffer := st.buffer ++ [character] }
  else if character = '(' && !st.in_group then
    { st with in_group := true, group := some ')', buffer := st.buffer ++ [character] }
  else if st.group = some character then
    { st with in_group := false, buffer := st.buffer ++ [character] }
  else
    { st with buffer := st.buffer ++ [character] }

def lexRun (st : LexSt) (l : Chars) : LexSt := l.foldl lexStep st

/-- `if key is not None: values[key] = buffer.strip()` after the loop. -/
def lexFinish (st : LexSt) : List (Option Chars × Chars) :=
  match st.key with
  | some _ => dinsert st.values st.key (pyStrip st.buffer)
  | none => st.values

/-- The tokenizer phase of `_parse_options`: ordered `(key, rawValue)`
pairs, committing the final pair when a key was captured. -/
def lexValues (options : Chars) : List (Option Chars × Chars) :=
  lexFinish (lexRun lexInit options)

/-! ## Type classifier (`_parse_options` second loop body) -/

/-- Classify one raw value, mirroring the `if/elif` chain: bool, digits,
leading quote, leading parenthesis, contains a dot, literal.  `val[0]`
on an empty value raises `IndexError`; an invalid float literal raises
`ValueError`. -/
def classify (val : Chars) : Except PErr (String × PyObj) :=
  if pyLower val = "true".data then .ok ("bool", .pyBool true)
  else if pyLower val = "false".data then .ok ("bool", .pyBool false)
  else if pyIsDigit val then .ok ("int", .pyInt (strToNat val))
  else
    match val with
    | [] => .error .indexError
    | c :: _ =>
      if c = '"' then .ok ("string", .pyStr (pyStripQuote val))
      else if c = '(' then .ok ("group", .pyList (pySplit ',' (val.drop 1).dropLast))
      else if val.contains '.' then
        if pyFloatAccepts val then .ok ("float", .pyFloat val)
        else .error .valueError
      else .ok ("literal", .pyStr val)

/-- One iteration of the classification loop:
`self.config[key] = [tag, obj]`. -/
def classifyInto (cfg : Config) (kv : Option Chars × Chars) : Except PErr Config :=
  match classify kv.2 with
  | .ok tv => .ok (dinsert cfg kv.1 tv)
  | .error e => .error e

/-- `_parse_options`: tokenize, then classify each pair in order into a
fresh `self.config`. -/
def parseOptions (options : Chars) : Except PErr Config :=
  (lexValues options).foldlM classifyInto []

/-! ## Serializer (`save`) -/

def header : Chars := "/Script/Pal.PalGameWorldSettings".data
def optionKeyStr : Chars := "OptionSettings".data

/-- `str()` of a Python list of strings (`repr`): elements in single
quotes joined by `", "`; quote-escaping inside elements is not modelled
(this branch is only reachable for entries whose tag is inconsistent
with the stored object). -/
def pyReprStrList (xs : List Chars) : Chars :=
  '[' :: (List.intercalate ", ".data (xs.map (fun x => '\'' :: x ++ ['\'']))) ++ [']']

/-- Truthiness of an abstract float: zero mantissa digits mean `0.0`;
`inf`/`nan` are truthy.  Underflow of a tiny nonzero literal to `0.0`
is not modelled (this branch is only reachable for entries whose tag
`bool` is inconsistent with the stored float object). -/
def pyFloatTruthy (raw : Chars) : Bool :=
  let body := match pyStrip raw with
    | '+' :: r => r
    | '-' :: r => r
    | r => r
  infNan body ||
    (body.takeWhile (fun c => !(c = 'e' || c = 'E'))).any (fun c => c.isDigit && c ≠ '0')

/-- Python truthiness, as used by `'True' if val[1] else 'False'`. -/
def pyTruthy : PyObj → Bool
  | .pyBool b => b
  | .pyInt n => n ≠ 0
  | .pyFloat raw => pyFloatTruthy raw
  | .pyStr s => !s.isEmpty
  | .pyList xs => !xs.isEmpty

/-- Python `str(obj)`, with `fstr` standing for `str(float(..))`. -/
def pyToStr (fstr : Chars → Chars) : PyObj → Chars
  | .pyBool b => if b then "True".data else "False".data
  | .pyInt n => intToChars n
  | .pyFloat raw => fstr raw
  | .pyStr s => s
  | .pyList xs => pyReprStrList xs

/-- `str(key)`: a `None` key prints as `None`. -/
def keyToStr : Option Chars → Chars
  | none => "None".data
  | some k => k

/-- The value part of one serialized `key=value` token, following the
`if/elif` chain over `val[0]` in `save`.  `','.join` raises `TypeError`
unless the object is a list (or a string, whose characters it joins). -/
def renderValue (fstr : Chars → Chars) (tag : String) (obj : PyObj) :
    Except PErr Chars :=
  if tag = "bool" then .ok (if pyTruthy obj then "True".data else "False".data)
  else if tag = "int" then .ok (pyToStr fstr obj)
  else if tag = "string" then .ok ('"' :: pyToStr fstr obj ++ ['"'])
  else if tag = "float" then .ok (pyToStr fstr obj)
  else if tag = "group" then
    match obj with
    | .pyList xs => .ok ('(' :: pyJoin ',' xs ++ [')'])
    | .pyStr s => .ok ('(' :: pyJoin ',' (s.map (fun c => [c])) ++ [')'])
    | _ => .error .typeError
  else .ok (pyToStr fstr obj)

/-- One `key=value` token appended to `options` in `save`. -/
def renderEntry (fstr : Chars → Chars) (kv : Option Chars × (String × PyObj)) :
    Except PErr Chars :=
  match renderValue fstr kv.2.1 kv.2.2 with
  | .ok v => .ok (keyToStr kv.1 ++ '=' :: v)
  | .error e => .error e

/-- `save`: the full two-line file content written to the live file. -/
def save (fstr : Chars → Chars) (config : Config) : Except PErr Chars :=
  match config.mapM (renderEntry fstr) with
  | .ok options =>
    .ok ('[' :: header ++ ']' :: '\n' ::
         optionKeyStr ++ '=' :: '(' :: pyJoin ',' options ++ ')' :: '\n' :: [])
  | .error e => .error e

/-! ## Accessors (`get`, `set`) -/

/-- `get`: `self.config[key][1] if key in self.config else default`,
with the default modelled as `none`. -/
def get (config : Config) (key : Chars) : Option PyObj :=
  match config.find? (fun p => p.1 = some key) with
  | some p => some p.2.2
  | none => none

def recognizedTypes : List String :=
  ["bool", "int", "string", "float", "group", "literal"]

/-- `set`: reject an unrecognized type tag with `ValueError` before any
mutation or I/O; strip double quotes from string values
(`val.replace('"', '')`, an `AttributeError` on a non-string); store;
then immediately `save`.  Returns the new store and file content. -/
def set (fstr : Chars → Chars) (config : Config) (key : Chars)
    (var_type : String) (val : PyObj) : Except PErr (Config × Chars) :=
  if !recognizedTypes.contains var_type then .error .valueError
  else
    match
      (if var_type = "string" then
        match val with
        | .pyStr s => Except.ok (PyObj.pyStr (s.filter (fun c => c ≠ '"')))
        | _ => Except.error PErr.attributeError
      else .ok val) with
    | .error e => .error e
    | .ok val' =>
      let config' := dinsert config (some key) (var_type, val')
      match save fstr config' with
      | .error e => .error e
      | .ok content => .ok (config', content)

/-! ## Loader (`load`) -/

/-- One pass of `for line in f.readlines()`: every line starting with
`OptionSettings` is stripped of its envelope
(`line.strip()[len(option_key) + 2 : -1]`) and parsed, replacing the
store; `setFlag` tells whether this pass sets `self.configured` (it
does for the live file, not for the default file). -/
def scanLines (setFlag : Bool) : List Chars → Config → Bool →
    Except PErr (Config × Bool)
  | [], cfg, configured => .ok (cfg, configured)
  | line :: rest, cfg, configured =>
    if startsWith optionKeyStr line then
      match parseOptions (((pyStrip line).drop (optionKeyStr.length + 2)).dropLast) with
      | .error e => .error e
      | .ok cfg' => scanLines setFlag rest cfg' (configured || setFlag)
    else scanLines setFlag rest cfg configured

/-- Universal-newlines translation performed by text-mode reading:
`"\r\n"` and a lone `"\r"` both become `"\n"`.  The flag records
whether the previous character was `'\r'` (whose `'\n'` has already
been emitted), so the `'\n'` of a `"\r\n"` pair is swallowed. -/
def pyUnivNewlinesAux (prevCR : Bool) : Chars → Chars
  | [] => []
  | c :: rest =>
    if c = '\r' then '\n' :: pyUnivNewlinesAux true rest
    else if c = '\n' then
      if prevCR then pyUnivNewlinesAux false rest
      else '\n' :: pyUnivNewlinesAux false rest
    else c :: pyUnivNewlinesAux false rest

def pyUnivNewlines (content : Chars) : Chars :=
  pyUnivNewlinesAux false content

/-- Text-mode `readlines`: translate newlines, then split at `'\n'`.
Line terminators are dropped; since every line is then passed through
`startswith` and `strip`, this is equivalent to Python's
terminator-keeping lines. -/
def pyReadLines (content : Chars) : List Chars :=
  pySplit '\n' (pyUnivNewlines content)

/-- `load`: read the live file when it exists; when no `OptionSettings`
line was seen there, fall back to the default file, leaving
`configured` false.  File contents are read in text mode with
universal newlines. -/
def load (live : Option Chars) (dflt : Chars) : Except PErr (Config × Bool) :=
  let afterLive :=
    match live with
    | some content => scanLines true (pyReadLines content) [] false
    | none => .ok ([], false)
  match afterLive with
  | .error e => .error e
  | .ok (cfg, configured) =>
    if configured then .ok (cfg, true)
    else
      match scanLines false (pyReadLines dflt) cfg false with
      | .error e => .error e
      | .ok (cfg', _) => .ok (cfg', false)

/-- A placeholder for the abstract float rendering, used when
instantiating theorems on concrete float-free stores. -/
def fstrId : Chars → Chars := fun r => r

/-! ## Hygiene predicates

Sufficient conditions under which a store survives the
serialize/re-lex/re-classify cycle unchanged.  They carve out the
fragment of stores whose keys and values contain no characters that the
lexer treats specially and whose values re-classify to the tag they
carry; `float` entries are excluded because their rendering is the
abstract binary64 formatting `fstr`. -/

/-- A character the lexer always just appends while outside a group. -/
def bareChar (c : Char) : Bool :=
  !(c = '=' || c = ',' || c = '"' || c = '(')

/-- A key that re-lexes to itself: nonempty, `strip`-fixed, no
structural characters, no newline. -/
def cleanKey (k : Chars) : Bool :=
  !k.isEmpty && (pyStrip k == k) &&
    k.all (fun c => bareChar c && c ≠ '\n' && c ≠ '\r')

/-- A `[tag, obj]` pair that re-classifies to itself after rendering. -/
def cleanVal (tag : String) (obj : PyObj) : Bool :=
  if tag = "bool" then
    match obj with
    | .pyBool _ => true
    | _ => false
  else if tag = "int" then
    match obj with
    | .pyInt n => decide (0 ≤ n)
    | _ => false
  else if tag = "string" then
    match obj with
    | .pyStr s => s.all (fun c => c ≠ '"' && c ≠ '\n' && c ≠ '\r')
    | _ => false
  else if tag = "group" then
    match obj with
    | .pyList xs =>
      !xs.isEmpty &&
        xs.all (fun x => x.all (fun c => c ≠ ',' && c ≠ ')' && c ≠ '\n' && c ≠ '\r'))
    | _ => false
  else if tag = "literal" then
    match obj with
    | .pyStr s =>
      !s.isEmpty && (pyStrip s == s) && !(pyLower s == "true".data) &&
        !(pyLower s == "false".data) && !pyIsDigit s &&
        s.all (fun c => bareChar c && c ≠ '.' && c ≠ '\n' && c ≠ '\r')
    | _ => false
  else false

/-- A store entry with a clean, non-`None` key and a clean value. -/
def cleanEntry (e : Option Chars × (String × PyObj)) : Bool :=
  (match e.1 with
   | some k => cleanKey k
   | none => false) && cleanVal e.2.1 e.2.2

/-- A store whose keys are distinct and whose entries are all clean. -/
def CleanCfg (cfg : Config) : Prop :=
  (cfg.map Prod.fst).Nodup ∧ ∀ e ∈ cfg, cleanEntry e = true

instance (cfg : Config) : Decidable (CleanCfg cfg) :=
  inferInstanceAs (Decidable (_ ∧ _))

instance {ε α : Type} [DecidableEq ε] [DecidableEq α] : DecidableEq (Except ε α) :=
  fun a b =>
    match a, b with
    | .ok x, .ok y =>
      if h : x = y then isTrue (by rw [h]) else isFalse (by simp [h])
    | .error x, .error y =>
      if h : x = y then isTrue (by rw [h]) else isFalse (by simp [h])
    | .ok _, .error _ => isFalse (by simp)
    | .error _, .ok _ => isFalse (by simp)

/-- The contract between a clean store entry and its rendered
`key=value` token: the token re-lexes to a plain buffer append and the
raw value re-classifies to exactly the stored `[tag, obj]` pair. -/
def EntryTok (e : Option Chars × (String × PyObj)) (t : Chars) : Prop :=
  ∃ k v, e.1 = some k ∧ cleanKey k = true ∧ t = k ++ '=' :: v ∧ pyStrip v = v ∧
    classify v = .ok e.2 ∧ (∀ c ∈ t, c ≠ '\n' ∧ c ≠ '\r') ∧
    ∀ st : LexSt, st.in_group = false →
      ∃ g', lexRun st v = { st with buffer := st.buffer ++ v, group := g' }

/-! ## Lemmas: string utilities -/

theorem dropWhile_eq_self_of_forall (p : Char → Bool) (l : Chars)
    (h : ∀ c ∈ l, p c = false) : List.dropWhile p l = l := by
  cases l with
  | nil => rfl
  | cons c t => simp [List.dropWhile_cons, h c (List.mem_cons_self c t)]

theorem pyStrip_id (l : Chars) (c d : Char) (hc : l.head? = some c)
    (hd : l.getLast? = some d) (h1 : pyIsSpace c = false) (h2 : pyIsSpace d = false) :
    pyStrip l = l := by
  unfold pyStrip
  cases l with
  | nil => rfl
  | cons a t =>
    have hac : a = c := by simpa using hc
    subst hac
    rw [show List.dropWhile pyIsSpace (a :: t) = a :: t by
      simp [List.dropWhile_cons, h1]]
    cases hrev : (a :: t).reverse with
    | nil => exact absurd hrev (by simp)
    | cons b t2 =>
      have hbd : b = d := by
        have hh := List.head?_reverse (a :: t)
        rw [hrev, hd] at hh
        simpa using hh
      subst hbd
      rw [show List.dropWhile pyIsSpace (b :: t2) = b :: t2 by
        simp [List.dropWhile_cons, h2]]
      rw [← hrev, List.reverse_reverse]

theorem pyStripQuote_wrap (s : Chars) (h : ∀ c ∈ s, c ≠ '"') :
    pyStripQuote ('"' :: s ++ ['"']) = s := by
  unfold pyStripQuote
  rw [show List.dropWhile (· = '"') ('"' :: s ++ ['"']) =
      List.dropWhile (· = '"') (s ++ ['"']) by simp [List.dropWhile_cons]]
  cases s with
  | nil => rfl
  | cons a t =>
    have ha : a ≠ '"' := h a (List.mem_cons_self a t)
    rw [show ((a :: t) ++ ['"'] : Chars) = a :: (t ++ ['"']) from rfl]
    rw [show List.dropWhile (· = '"') (a :: (t ++ ['"'])) = a :: (t ++ ['"']) by
      simp [List.dropWhile_cons, ha]]
    rw [show (a :: (t ++ ['"'])).reverse = '"' :: (a :: t).reverse by
      rw [show (a :: (t ++ ['"'])) = (a :: t) ++ ['"'] from rfl, List.reverse_append]
      rfl]
    rw [show List.dropWhile (· = '"') ('"' :: (a :: t).reverse) =
      List.dropWhile (· = '"') ((a :: t).reverse) by simp [List.dropWhile_cons]]
    rw [dropWhile_eq_self_of_forall _ _ (by
      intro c hcmem
      have hmem : c ∈ a :: t := List.mem_reverse.mp hcmem
      simp [h c hmem])]
    exact List.reverse_reverse _

theorem pySplit_cons (sep c : Char) (rest : Chars) :
    pySplit sep (c :: rest) =
      match pySplit sep rest with
      | [] => [[]]
      | g :: gs => if c = sep then [] :: g :: gs else (c :: g) :: gs := rfl

theorem pySplit_ne_nil (sep : Char) (l : Chars) : pySplit sep l ≠ [] := by
  induction l with
  | nil => simp [pySplit]
  | cons c rest ih =>
    rw [pySplit_cons]
    cases h : pySplit sep rest with
    | nil => simp
    | cons g gs => by_cases hcs : c = sep <;> simp [hcs]

theorem pySplit_no_sep (sep : Char) (l : Chars) (h : ∀ c ∈ l, c ≠ sep) :
    pySplit sep l = [l] := by
  induction l with
  | nil => rfl
  | cons c rest ih =>
    rw [pySplit_cons, ih (fun x hx => h x (List.mem_cons_of_mem c hx))]
    simp [h c (List.mem_cons_self c rest)]

theorem pySplit_sep_cons (sep : Char) (t : Chars) :
    pySplit sep (sep :: t) = [] :: pySplit sep t := by
  rw [pySplit_cons]
  cases h : pySplit sep t with
  | nil => exact absurd h (pySplit_ne_nil sep t)
  | cons g gs => simp

theorem pySplit_append (sep : Char) (x t : Chars) (hx : ∀ c ∈ x, c ≠ sep) :
    pySplit sep (x ++ sep :: t) = x :: pySplit sep t := by
  induction x with
  | nil => simpa using pySplit_sep_cons sep t
  | cons c xs ih =>
    rw [show ((c :: xs) ++ sep :: t : Chars) = c :: (xs ++ sep :: t) from rfl]
    rw [pySplit_cons, ih (fun a ha => hx a (List.mem_cons_of_mem c ha))]
    simp [hx c (List.mem_cons_self c xs)]

theorem pySplit_pyJoin (sep : Char) (xs : List Chars) (hne : xs ≠ [])
    (h : ∀ x ∈ xs, ∀ c ∈ x, c ≠ sep) :
    pySplit sep (pyJoin sep xs) = xs := by
  induction xs with
  | nil => exact absurd rfl hne
  | cons x ys ih =>
    cases ys with
    | nil => exact pySplit_no_sep sep x (h x (List.mem_cons_self x []))
    | cons y zs =>
      rw [show pyJoin sep (x :: y :: zs) = x ++ sep :: pyJoin sep (y :: zs) from rfl]
      rw [pySplit_append sep x _ (h x (List.mem_cons_self x _))]
      rw [ih (by simp) (fun a ha => h a (List.mem_cons_of_mem x ha))]

theorem mem_pyJoin (sep : Char) (xs : List Chars) (c : Char) (h : c ∈ pyJoin sep xs) :
    c = sep ∨ ∃ x ∈ xs, c ∈ x := by
  induction xs with
  | nil => simp [pyJoin] at h
  | cons x ys ih =>
    cases ys with
    | nil =>
      right
      exact ⟨x, List.mem_cons_self x [], h⟩
    | cons y zs =>
      rw [show pyJoin sep (x :: y :: zs) = x ++ sep :: pyJoin sep (y :: zs) from rfl] at h
      rcases List.mem_append.mp h with hx | hrest
      · exact Or.inr ⟨x, List.mem_cons_self x _, hx⟩
      · rcases List.mem_cons.mp hrest with hsep | hj
        · exact Or.inl hsep
        · rcases ih hj with hsep | ⟨a, ha, hca⟩
          · exact Or.inl hsep
          · exact Or.inr ⟨a, List.mem_cons_of_mem x ha, hca⟩

/-! ## Lemmas: decimal rendering of integers -/

theorem toLower_digit (c : Char) (h : c.isDigit = true) : c.toLower = c := by
  have h2 : c.toNat ≤ 57 := by
    have hle : c.val ≤ 57 := by
      simp only [Char.isDigit, Bool.and_eq_true, decide_eq_true_eq] at h
      exact h.2
    exact UInt32.toNat_le_of_le (by norm_num) hle
  unfold Char.toLower
  rw [if_neg (by omega)]

theorem natToCharsFuel_digits (fuel n : Nat) (h : n < fuel) :
    (∀ c ∈ natToCharsFuel fuel n, c.isDigit = true) ∧ natToCharsFuel fuel n ≠ [] := by
  induction fuel generalizing n with
  | zero => omega
  | succ fuel ih =>
    have heq : natToCharsFuel (fuel + 1) n =
        (if n < 10 then [Char.ofNat ('0'.toNat + n)]
         else natToCharsFuel fuel (n / 10) ++ [Char.ofNat ('0'.toNat + n % 10)]) := rfl
    rw [heq]
    by_cases h10 : n < 10
    · rw [if_pos h10]
      refine ⟨?_, by simp⟩
      intro c hc
      have hcd : c = Char.ofNat ('0'.toNat + n) := by simpa using hc
      subst hcd
      interval_cases n <;> decide
    · rw [if_neg h10]
      have hdiv : n / 10 < fuel := by
        have h1 : n / 10 < n := Nat.div_lt_self (by omega) (by omega)
        omega
      have hrec := ih (n / 10) hdiv
      refine ⟨?_, by simp [hrec.2]⟩
      intro c hc
      rcases List.mem_append.mp hc with hm | hm
      · exact hrec.1 c hm
      · have hcd : c = Char.ofNat ('0'.toNat + n % 10) := by simpa using hm
        subst hcd
        have hlt : n % 10 < 10 := Nat.mod_lt _ (by omega)
        interval_cases hh : n % 10 <;> decide

theorem natToChars_digits (n : Nat) :
    (∀ c ∈ natToChars n, c.isDigit = true) ∧ natToChars n ≠ [] :=
  natToCharsFuel_digits (n + 1) n (by omega)

theorem strToNat_append_digit (l : Chars) (c : Char) :
    strToNat (l ++ [c]) = 10 * strToNat l + (c.toNat - '0'.toNat) := by
  unfold strToNat
  rw [List.foldl_append]
  rfl

theorem strToNat_natToCharsFuel (fuel n : Nat) (h : n < fuel) :
    strToNat (natToCharsFuel fuel n) = n := by
  induction fuel generalizing n with
  | zero => omega
  | succ fuel ih =>
    have heq : natToCharsFuel (fuel + 1) n =
        (if n < 10 then [Char.ofNat ('0'.toNat + n)]
         else natToCharsFuel fuel (n / 10) ++ [Char.ofNat ('0'.toNat + n % 10)]) := rfl
    rw [heq]
    by_cases h10 : n < 10
    · rw [if_pos h10]
      interval_cases n <;> decide
    · rw [if_neg h10, strToNat_append_digit]
      have hdiv : n / 10 < fuel := by
        have h1 : n / 10 < n := Nat.div_lt_self (by omega) (by omega)
        omega
      rw [ih (n / 10) hdiv]
      have hlt : n % 10 < 10 := Nat.mod_lt _ (by omega)
      have hdig : (Char.ofNat ('0'.toNat + n % 10)).toNat - '0'.toNat = n % 10 := by
        interval_cases hh : n % 10 <;> decide
      rw [hdig]
      omega

theorem strToNat_natToChars (n : Nat) : strToNat (natToChars n) = n :=
  strToNat_natToCharsFuel (n + 1) n (by omega)

/-! ## Lemmas: the lexer state machine -/

theorem bareChar_spec (c : Char) (h : bareChar c = true) :
    c ≠ '=' ∧ c ≠ ',' ∧ c ≠ '"' ∧ c ≠ '(' := by
  simp only [bareChar, Bool.not_eq_true', Bool.or_eq_false_iff, decide_eq_false_iff_not] at h
  exact ⟨h.1.1.1, h.1.1.2, h.1.2, h.2⟩

theorem lexRun_nil (st : LexSt) : lexRun st [] = st := rfl

theorem lexRun_cons (st : LexSt) (c : Char) (l : Chars) :
    lexRun st (c :: l) = lexRun (lexStep st c) l := rfl

theorem lexRun_append (st : LexSt) (l1 l2 : Chars) :
    lexRun st (l1 ++ l2) = lexRun (lexRun st l1) l2 :=
  List.foldl_append _ _ _ _

theorem lexStep_bare (st : LexSt) (c : Char) (hg : st.in_group = false)
    (h1 : c ≠ '=') (h2 : c ≠ ',') (h3 : c ≠ '"') (h4 : c ≠ '(') :
    lexStep st c = { st with buffer := st.buffer ++ [c] } := by
  unfold lexStep
  rw [if_neg (by simp [h1]), if_neg (by simp [h2]), if_neg (by simp [h3]),
    if_neg (by simp [h4])]
  obtain ⟨buf, vals, ing, grp, key⟩ := st
  simp only at hg
  subst hg
  split <;> rfl

theorem lexStep_eq_char (st : LexSt) (hg : st.in_group = false) :
    lexStep st '=' = { st with key := some (pyStrip st.buffer), buffer := [] } := by
  unfold lexStep
  rw [if_pos (by simp [hg])]

theorem lexStep_comma (st : LexSt) (hg : st.in_group = false) :
    lexStep st ',' =
      { st with values := dinsert st.values st.key (pyStrip st.buffer), buffer := [] } := by
  unfold lexStep
  rw [if_neg (by simp), if_pos (by simp [hg])]

theorem lexStep_open_quote (st : LexSt) (hg : st.in_group = false) :
    lexStep st '"' =
      { st with in_group := true, group := some '"', buffer := st.buffer ++ ['"'] } := by
  unfold lexStep
  rw [if_neg (by simp), if_neg (by simp), if_pos (by simp [hg])]

theorem lexStep_open_paren (st : LexSt) (hg : st.in_group = false) :
    lexStep st '(' =
      { st with in_group := true, group := some ')', buffer := st.buffer ++ ['('] } := by
  unfold lexStep
  rw [if_neg (by simp), if_neg (by simp), if_neg (by simp), if_pos (by simp [hg])]

theorem lexStep_close (st : LexSt) (c : Char) (hg : st.in_group = true)
    (hgr : st.group = some c) :
    lexStep st c = { st with in_group := false, buffer := st.buffer ++ [c] } := by
  unfold lexStep
  rw [if_neg (by simp [hg]), if_neg (by simp [hg]), if_neg (by simp [hg]),
    if_neg (by simp [hg]), if_pos hgr]

theorem lexStep_inGroup_other (st : LexSt) (c g : Char) (hg : st.in_group = true)
    (hgr : st.group = some g) (hne : c ≠ g) :
    lexStep st c = { st with buffer := st.buffer ++ [c] } := by
  unfold lexStep
  rw [if_neg (by simp [hg]), if_neg (by simp [hg]), if_neg (by simp [hg]),
    if_neg (by simp [hg]), if_neg (by simp [hgr]; exact fun he => hne he.symm)]

theorem lexRun_bare (st : LexSt) (l : Chars) (hg : st.in_group = false)
    (h : ∀ c ∈ l, bareChar c = true) :
    lexRun st l = { st with buffer := st.buffer ++ l } := by
  induction l generalizing st with
  | nil =>
    obtain ⟨buf, vals, ing, grp, key⟩ := st
    simp [lexRun]
  | cons c cs ih =>
    obtain ⟨h1, h2, h3, h4⟩ := bareChar_spec c (h c (List.mem_cons_self c cs))
    rw [lexRun_cons, lexStep_bare st c hg h1 h2 h3 h4,
      ih { st with buffer := st.buffer ++ [c] } (by simpa using hg)
        (fun x hx => h x (List.mem_cons_of_mem c hx))]
    simp

theorem lexRun_inGroup (st : LexSt) (g : Char) (l : Chars) (hg : st.in_group = true)
    (hgr : st.group = some g) (h : ∀ c ∈ l, c ≠ g) :
    lexRun st l = { st with buffer := st.buffer ++ l } := by
  induction l generalizing st with
  | nil =>
    obtain ⟨buf, vals, ing, grp, key⟩ := st
    simp [lexRun]
  | cons c cs ih =>
    rw [lexRun_cons, lexStep_inGroup_other st c g hg hgr (h c (List.mem_cons_self c cs)),
      ih { st with buffer := st.buffer ++ [c] } (by simpa using hg) (by simpa using hgr)
        (fun x hx => h x (List.mem_cons_of_mem c hx))]
    simp

/-! ## Lemmas: ordered-dict operations -/

theorem dinsert_fresh {K V : Type} [DecidableEq K] (m : List (K × V)) (k : K) (v : V)
    (h : ∀ p ∈ m, p.1 ≠ k) : dinsert m k v = m ++ [(k, v)] := by
  unfold dinsert
  rw [if_neg]
  simp only [List.any_eq_true, decide_eq_true_eq, not_exists, not_and]
  exact fun p hp => h p hp

theorem dinsert_keys {K V : Type} [DecidableEq K] (m : List (K × V)) (k : K) (v : V) :
    (dinsert m k v).map Prod.fst =
      if k ∈ m.map Prod.fst then m.map Prod.fst else m.map Prod.fst ++ [k] := by
  unfold dinsert
  by_cases h : m.any (fun p => p.1 = k)
  · rw [if_pos h, if_pos]
    · rw [List.map_map]
      apply List.map_congr_left
      intro p _
      by_cases hp : p.1 = k <;> simp [hp]
    · simp only [List.any_eq_true, decide_eq_true_eq] at h
      obtain ⟨p, hp, hpk⟩ := h
      exact hpk ▸ List.mem_map_of_mem Prod.fst hp
  · rw [if_neg h, if_neg]
    · simp
    · simp only [List.any_eq_true, decide_eq_true_eq, not_exists, not_and] at h
      intro hmem
      obtain ⟨p, hp, hpk⟩ := List.mem_map.mp hmem
      exact h p hp hpk

theorem find?_eq_none_of_forall {α : Type} (p : α → Bool) (l : List α)
    (h : ∀ x ∈ l, p x = false) : l.find? p = none := by
  induction l with
  | nil => rfl
  | cons a t ih =>
    rw [List.find?_cons, h a (List.mem_cons_self a t)]
    exact ih (fun x hx => h x (List.mem_cons_of_mem a hx))

theorem get_dinsert (m : Config) (k : Chars) (tv : String × PyObj) :
    get (dinsert m (some k) tv) k = some tv.2 := by
  unfold get dinsert
  by_cases h : m.any (fun p => p.1 = some k)
  · rw [if_pos h]
    simp only [List.any_eq_true, decide_eq_true_eq] at h
    obtain ⟨q, hq, hqk⟩ := h
    induction m with
    | nil => simp at hq
    | cons a t ih =>
      rcases List.mem_cons.mp hq with rfl | hqt
      · simp [List.find?_cons, hqk]
      · by_cases ha : a.1 = some k
        · simp [List.find?_cons, ha]
        · rw [List.map_cons, if_neg ha, List.find?_cons]
          rw [show (decide (a.1 = some k)) = false by simp [ha]]
          exact ih hqt
  · rw [if_neg h]
    simp only [List.any_eq_true, decide_eq_true_eq, not_exists, not_and] at h
    rw [List.find?_append, find?_eq_none_of_forall _ _ (fun p hp => by simp [h p hp])]
    simp [List.find?_cons]

/-! ## Lemmas: the classifier on rendered shapes -/

theorem pyLower_head_ne_true (c : Char) (t : Chars) (h : c.toLower ≠ 't') :
    pyLower (c :: t) ≠ "true".data := by
  intro heq
  apply h
  have h1 : List.head? (pyLower (c :: t)) = some c.toLower := rfl
  rw [heq] at h1
  exact Option.some.inj (h1.symm : some c.toLower = some 't')

theorem pyLower_head_ne_false (c : Char) (t : Chars) (h : c.toLower ≠ 'f') :
    pyLower (c :: t) ≠ "false".data := by
  intro heq
  apply h
  have h1 : List.head? (pyLower (c :: t)) = some c.toLower := rfl
  rw [heq] at h1
  exact Option.some.inj (h1.symm : some c.toLower = some 'f')

theorem pyIsDigit_head_false (c : Char) (t : Chars) (h : c.isDigit = false) :
    pyIsDigit (c :: t) = false := by
  simp [pyIsDigit, h]

theorem contains_eq_false_of_forall (l : Chars) (a : Char) (h : ∀ c ∈ l, c ≠ a) :
    l.contains a = false := by
  induction l with
  | nil => rfl
  | cons c t ih =>
    have hca : (a == c) = false := by
      simp only [beq_eq_false_iff_ne, ne_eq]
      exact fun he => h c (List.mem_cons_self c t) he.symm
    simp only [List.contains_cons, hca, Bool.false_or]
    exact ih (fun x hx => h x (List.mem_cons_of_mem c hx))

theorem classify_cons_shape (c : Char) (t : Chars)
    (h1 : pyLower (c :: t) ≠ "true".data) (h2 : pyLower (c :: t) ≠ "false".data)
    (h3 : pyIsDigit (c :: t) = false) :
    classify (c :: t) =
      (if c = '"' then .ok ("string", .pyStr (pyStripQuote (c :: t)))
       else if c = '(' then .ok ("group", .pyList (pySplit ',' ((c :: t).drop 1).dropLast))
       else if (c :: t).contains '.' then
         if pyFloatAccepts (c :: t) then .ok ("float", .pyFloat (c :: t))
         else .error .valueError
       else .ok ("literal", .pyStr (c :: t))) := by
  unfold classify
  rw [if_neg h1, if_neg h2, if_neg (by simp [h3])]

theorem classify_true_chars : classify "True".data = .ok ("bool", .pyBool true) := by
  decide

theorem classify_false_chars : classify "False".data = .ok ("bool", .pyBool false) := by
  decide

theorem classify_digits (l : Chars) (hne : l ≠ []) (hd : ∀ c ∈ l, c.isDigit = true) :
    classify l = .ok ("int", .pyInt (strToNat l)) := by
  obtain ⟨c, t, rfl⟩ := List.exists_cons_of_ne_nil hne
  have hc := hd c (List.mem_cons_self c t)
  have hct : c.toLower = c := toLower_digit c hc
  have h1 : pyLower (c :: t) ≠ "true".data := by
    apply pyLower_head_ne_true
    rw [hct]
    intro hcl
    rw [hcl] at hc
    exact absurd hc (by decide)
  have h2 : pyLower (c :: t) ≠ "false".data := by
    apply pyLower_head_ne_false
    rw [hct]
    intro hcl
    rw [hcl] at hc
    exact absurd hc (by decide)
  unfold classify
  rw [if_neg h1, if_neg h2, if_pos]
  simp only [pyIsDigit, List.isEmpty_cons, Bool.not_false, Bool.true_and]
  exact List.all_eq_true.mpr (fun x hx => hd x hx)

theorem classify_quoted (s : Chars) (h : ∀ c ∈ s, c ≠ '"') :
    classify ('"' :: s ++ ['"']) = .ok ("string", .pyStr s) := by
  rw [show ('"' :: s ++ ['"'] : Chars) = '"' :: (s ++ ['"']) from rfl]
  rw [classify_cons_shape '"' (s ++ ['"'])
    (pyLower_head_ne_true _ _ (by decide)) (pyLower_head_ne_false _ _ (by decide))
    (pyIsDigit_head_false _ _ (by decide))]
  rw [if_pos rfl]
  rw [show ('"' :: (s ++ ['"'])) = ('"' :: s ++ ['"']) from rfl, pyStripQuote_wrap s h]

theorem classify_group_shape (xs : List Chars) (hne : xs ≠ [])
    (hx : ∀ x ∈ xs, ∀ c ∈ x, c ≠ ',') :
    classify ('(' :: pyJoin ',' xs ++ [')']) = .ok ("group", .pyList xs) := by
  rw [show ('(' :: pyJoin ',' xs ++ [')'] : Chars) = '(' :: (pyJoin ',' xs ++ [')']) from rfl]
  rw [classify_cons_shape '(' (pyJoin ',' xs ++ [')'])
    (pyLower_head_ne_true _ _ (by decide)) (pyLower_head_ne_false _ _ (by decide))
    (pyIsDigit_head_false _ _ (by decide))]
  rw [if_neg (by decide), if_pos rfl]
  rw [show (('(' : Char) :: (pyJoin ',' xs ++ [')'])).drop 1 = pyJoin ',' xs ++ [')'] from rfl]
  rw [show (pyJoin ',' xs ++ [')']).dropLast = pyJoin ',' xs from List.dropLast_concat]
  rw [pySplit_pyJoin ',' xs hne hx]

theorem classify_literal_shape (s : Chars) (hne : s ≠ [])
    (h1 : pyLower s ≠ "true".data) (h2 : pyLower s ≠ "false".data)
    (h3 : pyIsDigit s = false)
    (h4 : ∀ c ∈ s, bareChar c = true) (h5 : ∀ c ∈ s, c ≠ '.') :
    classify s = .ok ("literal", .pyStr s) := by
  obtain ⟨c, t, rfl⟩ := List.exists_cons_of_ne_nil hne
  obtain ⟨_, _, hq, hp⟩ := bareChar_spec c (h4 c (List.mem_cons_self c t))
  have hdot : (c :: t).contains '.' = false := contains_eq_false_of_forall _ _ h5
  rw [classify_cons_shape c t h1 h2 h3, if_neg hq, if_neg hp,
    if_neg (by rw [hdot]; exact Bool.false_ne_true)]

/-! ## Lemmas: character classes of rendered text -/

theorem bareChar_true_iff (c : Char) :
    bareChar c = true ↔ (c ≠ '=' ∧ c ≠ ',' ∧ c ≠ '"' ∧ c ≠ '(') := by
  simp only [bareChar, Bool.not_eq_true', Bool.or_eq_false_iff, decide_eq_false_iff_not]
  tauto

theorem pyIsSpace_eq_false_of_digit (c : Char) (h : c.isDigit = true) :
    pyIsSpace c = false := by
  simp only [Char.isDigit, Bool.and_eq_true, decide_eq_true_eq] at h
  have h1 : 48 ≤ c.toNat := UInt32.le_toNat_of_le (by norm_num) h.1
  have h2 : c.toNat ≤ 57 := UInt32.toNat_le_of_le (by norm_num) h.2
  simp only [pyIsSpace, decide_eq_false_iff_not]
  omega

theorem digit_ne_newline (c : Char) (h : c.isDigit = true) :
    c ≠ '\n' ∧ c ≠ '\r' := by
  constructor <;> intro he <;> rw [he] at h <;> exact absurd h (by decide)

theorem bareChar_of_digit (c : Char) (h : c.isDigit = true) : bareChar c = true := by
  rw [bareChar_true_iff]
  refine ⟨?_, ?_, ?_, ?_⟩ <;> intro he <;> rw [he] at h <;> exact absurd h (by decide)

theorem pyStrip_id_of_nonspace (l : Chars) (hne : l ≠ [])
    (h : ∀ c ∈ l, pyIsSpace c = false) : pyStrip l = l := by
  obtain ⟨c, t, rfl⟩ := List.exists_cons_of_ne_nil hne
  cases hlast : (c :: t).getLast? with
  | none => exact absurd (List.getLast?_eq_none_iff.mp hlast) (by simp)
  | some d =>
    exact pyStrip_id _ c d rfl hlast (h c (List.mem_cons_self c t))
      (h d (List.mem_of_getLast?_eq_some hlast))

theorem lexRun_bare_g (st : LexSt) (l : Chars) (hg : st.in_group = false)
    (h : ∀ c ∈ l, bareChar c = true) :
    ∃ g', lexRun st l = { st with buffer := st.buffer ++ l, group := g' } :=
  ⟨st.group, by rw [lexRun_bare st l hg h]⟩

theorem lexRun_quoted (st : LexSt) (s : Chars) (hg : st.in_group = false)
    (hs : ∀ c ∈ s, c ≠ '"') :
    lexRun st ('"' :: s ++ ['"']) =
      { st with buffer := st.buffer ++ ('"' :: s ++ ['"']), group := some '"' } := by
  rw [show ('"' :: s ++ ['"'] : Chars) = '"' :: (s ++ ['"']) from rfl, lexRun_cons,
    lexStep_open_quote st hg, lexRun_append,
    lexRun_inGroup _ '"' s rfl rfl hs, lexRun_cons, lexStep_close _ '"' rfl rfl]
  simp [lexRun_nil, hg]

theorem lexRun_paren (st : LexSt) (j : Chars) (hg : st.in_group = false)
    (hj : ∀ c ∈ j, c ≠ ')') :
    lexRun st ('(' :: j ++ [')']) =
      { st with buffer := st.buffer ++ ('(' :: j ++ [')']), group := some ')' } := by
  rw [show ('(' :: j ++ [')'] : Chars) = '(' :: (j ++ [')']) from rfl, lexRun_cons,
    lexStep_open_paren st hg, lexRun_append,
    lexRun_inGroup _ ')' j rfl rfl hj, lexRun_cons, lexStep_close _ ')' rfl rfl]
  simp [lexRun_nil, hg]

/-! ## Lemmas: clean entries render to self-classifying tokens -/

theorem cleanKey_spec (k : Chars) (h : cleanKey k = true) :
    k ≠ [] ∧ pyStrip k = k ∧ (∀ c ∈ k, bareChar c = true) ∧
      (∀ c ∈ k, c ≠ '\n' ∧ c ≠ '\r') := by
  simp only [cleanKey, Bool.and_eq_true, beq_iff_eq, List.all_eq_true,
    Bool.not_eq_true', List.isEmpty_eq_false, decide_eq_true_eq] at h
  exact ⟨h.1.1, h.1.2, fun c hc => (h.2 c hc).1.1,
    fun c hc => ⟨(h.2 c hc).1.2, (h.2 c hc).2⟩⟩

theorem cleanVal_cases (tag : String) (obj : PyObj) (h : cleanVal tag obj = true) :
    (tag = "bool" ∧ ∃ b, obj = .pyBool b) ∨
    (tag = "int" ∧ ∃ n, obj = .pyInt n ∧ 0 ≤ n) ∨
    (tag = "string" ∧ ∃ s, obj = .pyStr s ∧
      (∀ c ∈ s, c ≠ '"' ∧ c ≠ '\n' ∧ c ≠ '\r')) ∨
    (tag = "group" ∧ ∃ xs, obj = .pyList xs ∧ xs ≠ [] ∧
      (∀ x ∈ xs, ∀ c ∈ x, c ≠ ',' ∧ c ≠ ')' ∧ c ≠ '\n' ∧ c ≠ '\r')) ∨
    (tag = "literal" ∧ ∃ s, obj = .pyStr s ∧ s ≠ [] ∧ pyStrip s = s ∧
      pyLower s ≠ "true".data ∧ pyLower s ≠ "false".data ∧ pyIsDigit s = false ∧
      (∀ c ∈ s, bareChar c = true ∧ c ≠ '.' ∧ c ≠ '\n' ∧ c ≠ '\r')) := by
  unfold cleanVal at h
  by_cases h1 : tag = "bool"
  · rw [if_pos h1] at h
    cases obj with
    | pyBool b => exact Or.inl ⟨h1, b, rfl⟩
    | pyInt n => simp at h
    | pyFloat r => simp at h
    | pyStr s => simp at h
    | pyList xs => simp at h
  rw [if_neg h1] at h
  by_cases h2 : tag = "int"
  · rw [if_pos h2] at h
    cases obj with
    | pyInt n =>
      refine Or.inr (Or.inl ⟨h2, n, rfl, ?_⟩)
      simpa using h
    | pyBool b => simp at h
    | pyFloat r => simp at h
    | pyStr s => simp at h
    | pyList xs => simp at h
  rw [if_neg h2] at h
  by_cases h3 : tag = "string"
  · rw [if_pos h3] at h
    cases obj with
    | pyStr s =>
      refine Or.inr (Or.inr (Or.inl ⟨h3, s, rfl, ?_⟩))
      simp only [List.all_eq_true, Bool.and_eq_true, decide_eq_true_eq] at h
      exact fun c hc => ⟨(h c hc).1.1, (h c hc).1.2, (h c hc).2⟩
    | pyBool b => simp at h
    | pyInt n => simp at h
    | pyFloat r => simp at h
    | pyList xs => simp at h
  rw [if_neg h3] at h
  by_cases h4 : tag = "group"
  · rw [if_pos h4] at h
    cases obj with
    | pyList xs =>
      refine Or.inr (Or.inr (Or.inr (Or.inl ⟨h4, xs, rfl, ?_, ?_⟩)))
      · rw [Bool.and_eq_true] at h
        simpa using h.1
      · rw [Bool.and_eq_true] at h
        have h2 := h.2
        simp only [List.all_eq_true, Bool.and_eq_true, decide_eq_true_eq] at h2
        exact fun x hx c hc => ⟨(h2 x hx c hc).1.1.1, (h2 x hx c hc).1.1.2,
          (h2 x hx c hc).1.2, (h2 x hx c hc).2⟩
    | pyBool b => simp at h
    | pyInt n => simp at h
    | pyFloat r => simp at h
    | pyStr s => simp at h
  rw [if_neg h4] at h
  by_cases h5 : tag = "literal"
  · rw [if_pos h5] at h
    cases obj with
    | pyStr s =>
      refine Or.inr (Or.inr (Or.inr (Or.inr ⟨h5, s, rfl, ?_⟩)))
      simp only [Bool.and_eq_true, beq_iff_eq, Bool.not_eq_true', beq_eq_false_iff_ne,
        ne_eq, List.isEmpty_eq_false, List.all_eq_true, decide_eq_true_eq] at h
      exact ⟨h.1.1.1.1.1, h.1.1.1.1.2, h.1.1.1.2, h.1.1.2, h.1.2,
        fun c hc => ⟨(h.2 c hc).1.1.1, (h.2 c hc).1.1.2,
          (h.2 c hc).1.2, (h.2 c hc).2⟩⟩
    | pyBool b => simp at h
    | pyInt n => simp at h
    | pyFloat r => simp at h
    | pyList xs => simp at h
  rw [if_neg h5] at h
  simp at h

theorem renderValue_clean (fstr : Chars → Chars) (tag : String) (obj : PyObj)
    (h : cleanVal tag obj = true) :
    ∃ v, renderValue fstr tag obj = .ok v ∧ pyStrip v = v ∧
      classify v = .ok (tag, obj) ∧ (∀ c ∈ v, c ≠ '\n' ∧ c ≠ '\r') ∧
      ∀ st : LexSt, st.in_group = false →
        ∃ g', lexRun st v = { st with buffer := st.buffer ++ v, group := g' } := by
  rcases cleanVal_cases tag obj h with
    ⟨rfl, b, rfl⟩ | ⟨rfl, n, rfl, hn⟩ | ⟨rfl, s, rfl, hs⟩ | ⟨rfl, xs, rfl, hne, hxs⟩ |
    ⟨rfl, s, rfl, hne, hstrip, ht, hf, hd, hchars⟩
  · cases b with
    | false =>
      exact ⟨"False".data, rfl, by decide, classify_false_chars, by decide,
        fun st hg => lexRun_bare_g st _ hg (by decide)⟩
    | true =>
      exact ⟨"True".data, rfl, by decide, classify_true_chars, by decide,
        fun st hg => lexRun_bare_g st _ hg (by decide)⟩
  · have hik : intToChars n = natToChars n.toNat := by
      unfold intToChars
      rw [if_neg (by omega)]
    obtain ⟨hdig, hnn⟩ := natToChars_digits n.toNat
    refine ⟨natToChars n.toNat, by rw [show renderValue fstr "int" (.pyInt n) =
        .ok (intToChars n) from rfl, hik],
      pyStrip_id_of_nonspace _ hnn (fun c hc => pyIsSpace_eq_false_of_digit c (hdig c hc)),
      ?_, fun c hc => digit_ne_newline c (hdig c hc),
      fun st hg => lexRun_bare_g st _ hg (fun c hc => bareChar_of_digit c (hdig c hc))⟩
    rw [classify_digits _ hnn hdig, strToNat_natToChars, Int.toNat_of_nonneg hn]
  · refine ⟨'"' :: s ++ ['"'], rfl,
      pyStrip_id _ '"' '"' rfl
        (by rw [show ('"' :: s ++ ['"'] : Chars) = ('"' :: s) ++ ['"'] from rfl,
          List.getLast?_concat]) (by decide) (by decide),
      classify_quoted s (fun c hc => (hs c hc).1), ?_,
      fun st hg => ⟨some '"', lexRun_quoted st s hg (fun c hc => (hs c hc).1)⟩⟩
    intro c hc
    rcases List.mem_cons.mp hc with rfl | hc2
    · decide
    rcases List.mem_append.mp hc2 with hc3 | hc4
    · exact (hs c hc3).2
    · have : c = '"' := by simpa using hc4
      subst this
      decide
  · have hjoin : ∀ c ∈ pyJoin ',' xs, c ≠ ')' ∧ c ≠ '\n' ∧ c ≠ '\r' := by
      intro c hc
      rcases mem_pyJoin ',' xs c hc with rfl | ⟨x, hx, hcx⟩
      · exact ⟨by decide, by decide, by decide⟩
      · exact ⟨(hxs x hx c hcx).2.1, (hxs x hx c hcx).2.2⟩
    refine ⟨'(' :: pyJoin ',' xs ++ [')'], rfl,
      pyStrip_id _ '(' ')' rfl
        (by rw [show ('(' :: pyJoin ',' xs ++ [')'] : Chars) =
          ('(' :: pyJoin ',' xs) ++ [')'] from rfl, List.getLast?_concat])
        (by decide) (by decide),
      classify_group_shape xs hne (fun x hx c hc => (hxs x hx c hc).1), ?_,
      fun st hg => ⟨some ')', lexRun_paren st _ hg (fun c hc => (hjoin c hc).1)⟩⟩
    intro c hc
    rcases List.mem_cons.mp hc with rfl | hc2
    · decide
    rcases List.mem_append.mp hc2 with hc3 | hc4
    · exact (hjoin c hc3).2
    · have : c = ')' := by simpa using hc4
      subst this
      decide
  · exact ⟨s, rfl, hstrip,
      classify_literal_shape s hne ht hf hd (fun c hc => (hchars c hc).1)
        (fun c hc => (hchars c hc).2.1),
      fun c hc => (hchars c hc).2.2,
      fun st hg => lexRun_bare_g st s hg (fun c hc => (hchars c hc).1)⟩

/-! ## Lemmas: a clean store re-parses from its own rendering -/

theorem renderEntry_clean (fstr : Chars → Chars) (e : Option Chars × (String × PyObj))
    (he : cleanEntry e = true) :
    ∃ t, renderEntry fstr e = .ok t ∧ EntryTok e t := by
  unfold cleanEntry at he
  rw [Bool.and_eq_true] at he
  cases hk : e.1 with
  | none => rw [hk] at he; simp at he
  | some k =>
    rw [hk] at he
    obtain ⟨v, hv, hstrip, hcls, hnl, hlex⟩ := renderValue_clean fstr e.2.1 e.2.2 he.2
    obtain ⟨hkne, hkstrip, hkbare, hknl⟩ := cleanKey_spec k he.1
    refine ⟨k ++ '=' :: v, ?_, k, v, hk, he.1, rfl, hstrip, hcls, ?_, hlex⟩
    · unfold renderEntry
      rw [hv, hk]
      rfl
    · intro c hc
      rcases List.mem_append.mp hc with hck | hcv
      · exact hknl c hck
      rcases List.mem_cons.mp hcv with rfl | hcv2
      · decide
      · exact hnl c hcv2

theorem mapM_renderEntry_clean (fstr : Chars → Chars) (cfg : Config)
    (h : ∀ e ∈ cfg, cleanEntry e = true) :
    ∃ tokens, cfg.mapM (renderEntry fstr) = .ok tokens ∧
      List.Forall₂ EntryTok cfg tokens := by
  induction cfg with
  | nil => exact ⟨[], rfl, .nil⟩
  | cons e es ih =>
    obtain ⟨tokens, htok, hfa⟩ := ih (fun x hx => h x (List.mem_cons_of_mem e hx))
    obtain ⟨t, ht, hent⟩ := renderEntry_clean fstr e (h e (List.mem_cons_self e es))
    refine ⟨t :: tokens, ?_, .cons hent hfa⟩
    rw [List.mapM_cons, ht, htok]
    rfl

/-- Lexing the `','`-joined clean tokens from a neutral state appends
exactly the `(key, raw value)` pairs to the committed values. -/
theorem lexFinish_entries (es : Config) (ts : List Chars) (st : LexSt)
    (hb : st.buffer = []) (hg : st.in_group = false)
    (hfa : List.Forall₂ EntryTok es ts) (hne : es ≠ [])
    (hnodup : (es.map Prod.fst).Nodup)
    (hfresh : ∀ e ∈ es, ∀ p ∈ st.values, p.1 ≠ e.1) :
    ∃ raws, lexFinish (lexRun st (pyJoin ',' ts)) = st.values ++ raws ∧
      List.Forall₂ (fun (e : Option Chars × (String × PyObj)) p =>
        p.1 = e.1 ∧ classify p.2 = .ok e.2) es raws := by
  induction es generalizing ts st with
  | nil => exact absurd rfl hne
  | cons e es' ih =>
    rcases hfa with _ | ⟨hent, hfat⟩
    rename_i t ts'
    obtain ⟨k, v, hk, hkc, rfl, hstrip, hcls, hnlt, hlex⟩ := hent
    obtain ⟨hkne, hkstrip, hkbare, hknl⟩ := cleanKey_spec k hkc
    have h1 : lexRun st k = { st with buffer := k } := by
      rw [lexRun_bare st k hg hkbare, hb]
      simp
    have h2 : lexStep { st with buffer := k } '=' =
        { st with buffer := [], key := some k } := by
      rw [lexStep_eq_char _ (by simpa using hg)]
      simp [hkstrip]
    obtain ⟨g', h3⟩ := hlex { st with buffer := [], key := some k } (by simpa using hg)
    have h3' : lexRun { st with buffer := [], key := some k } v =
        { st with buffer := v, key := some k, group := g' } := by
      rw [h3]
      simp
    have hrun : lexRun st (k ++ '=' :: v) =
        { st with buffer := v, key := some k, group := g' } := by
      rw [lexRun_append, h1, lexRun_cons, h2, h3']
    have hfreshk : ∀ p ∈ st.values, p.1 ≠ some k := fun p hp => by
      have := hfresh e (List.mem_cons_self e es') p hp
      rw [hk] at this
      exact this
    cases es' with
    | nil =>
      cases hfat
      rw [show pyJoin ',' [k ++ '=' :: v] = k ++ '=' :: v from rfl, hrun]
      refine ⟨[(some k, v)], ?_, .cons ⟨hk.symm, hcls⟩ .nil⟩
      show dinsert st.values (some k) (pyStrip v) = st.values ++ [(some k, v)]
      rw [hstrip, dinsert_fresh _ _ _ hfreshk]
    | cons e2 es'' =>
      have hts' : ts' ≠ [] := by
        cases hfat
        simp
      obtain ⟨t2, ts'', rfl⟩ := List.exists_cons_of_ne_nil hts'
      rw [show pyJoin ',' ((k ++ '=' :: v) :: t2 :: ts'') =
        (k ++ '=' :: v) ++ ',' :: pyJoin ',' (t2 :: ts'') from rfl]
      rw [lexRun_append, hrun, lexRun_cons]
      have hcomma : lexStep { st with buffer := v, key := some k, group := g' } ',' =
          { st with buffer := [], key := some k, group := g', values := st.values ++ [(some k, v)] } := by
        rw [lexStep_comma _ (by simpa using hg)]
        simp [hstrip, dinsert_fresh st.values (some k) v hfreshk]
      rw [hcomma]
      have hnodup' : ((e2 :: es'').map Prod.fst).Nodup := by
        rw [List.map_cons] at hnodup
        exact (List.nodup_cons.mp hnodup).2
      have hkfresh' : ∀ e' ∈ e2 :: es'', e'.1 ≠ some k := by
        intro e' he'
        rw [List.map_cons, List.nodup_cons] at hnodup
        intro habs
        apply hnodup.1
        rw [hk, ← habs]
        exact List.mem_map_of_mem Prod.fst he'
      obtain ⟨raws', hfin, hfa'⟩ := ih (t2 :: ts'')
        { st with buffer := [], key := some k, group := g', values := st.values ++ [(some k, v)] }
        rfl (by simpa using hg) hfat (by simp) hnodup'
        (by
          intro e' he' p hp
          rcases (by simpa using hp : p ∈ st.values ∨ p = (some k, v)) with hp1 | hp2
          · exact hfresh e' (List.mem_cons_of_mem e he') p hp1
          · rw [hp2]
            exact fun habs => (hkfresh' e' he') habs.symm)
      refine ⟨(some k, v) :: raws', ?_, .cons ⟨hk.symm, hcls⟩ hfa'⟩
      rw [hfin]
      simp

theorem foldlM_classifyInto (es : Config) (raws : List (Option Chars × Chars))
    (acc : Config)
    (hfa : List.Forall₂ (fun (e : Option Chars × (String × PyObj)) p =>
      p.1 = e.1 ∧ classify p.2 = .ok e.2) es raws)
    (hfresh : ∀ e ∈ es, ∀ q ∈ acc, q.1 ≠ e.1)
    (hnodup : (es.map Prod.fst).Nodup) :
    raws.foldlM classifyInto acc = .ok (acc ++ es) := by
  induction hfa generalizing acc with
  | nil =>
    rw [List.foldlM_nil, List.append_nil]
    rfl
  | @cons e p es' raws' h1 h2 ih =>
    rw [List.foldlM_cons]
    have hstep : classifyInto acc p = .ok (acc ++ [e]) := by
      unfold classifyInto
      rw [h1.2, h1.1]
      show Except.ok (dinsert acc e.1 e.2) = Except.ok (acc ++ [e])
      rw [dinsert_fresh _ _ _ (fun q hq => hfresh e (List.mem_cons_self e es') q hq)]
    rw [hstep]
    have hfresh' : ∀ e' ∈ es', ∀ q ∈ acc ++ [e], q.1 ≠ e'.1 := by
      intro e' he' q hq
      rcases (by simpa using hq : q ∈ acc ∨ q = e) with hq1 | hq2
      · exact hfresh e' (List.mem_cons_of_mem e he') q hq1
      · subst hq2
        rw [List.map_cons, List.nodup_cons] at hnodup
        intro habs
        apply hnodup.1
        rw [habs]
        exact List.mem_map_of_mem Prod.fst he'
    have hnodup' : (es'.map Prod.fst).Nodup := by
      rw [List.map_cons, List.nodup_cons] at hnodup
      exact hnodup.2
    have hrec := ih (acc ++ [e]) hfresh' hnodup'
    rw [show (Except.ok (acc ++ [e]) >>= fun b => List.foldlM classifyInto b raws') =
      List.foldlM classifyInto (acc ++ [e]) raws' from rfl]
    rw [hrec]
    simp

/-- A clean store is recovered exactly by re-parsing its own serialized
interior. -/
theorem parseOptions_render (fstr : Chars → Chars) (cfg : Config) (hC : CleanCfg cfg)
    (tokens : List Chars) (htok : cfg.mapM (renderEntry fstr) = .ok tokens) :
    parseOptions (pyJoin ',' tokens) = .ok cfg := by
  obtain ⟨tokens', htok', hfa⟩ := mapM_renderEntry_clean fstr cfg hC.2
  rw [htok] at htok'
  obtain rfl : tokens = tokens' := by
    exact Except.ok.inj htok'
  cases cfg with
  | nil =>
    cases hfa
    rfl
  | cons e es =>
    obtain ⟨raws, hfin, hfa2⟩ := lexFinish_entries (e :: es) tokens lexInit rfl rfl hfa
      (by simp) hC.1 (by intro _ _ p hp; simp [lexInit] at hp)
    unfold parseOptions lexValues
    rw [hfin]
    rw [show (lexInit.values ++ raws) = raws from rfl]
    exact foldlM_classifyInto (e :: es) raws [] hfa2 (by simp) hC.1

/-! ## Lemmas: saving and reloading -/

theorem forall₂_mem_right {α β : Type} {R : α → β → Prop} {as : List α} {bs : List β}
    (h : List.Forall₂ R as bs) {b : β} (hb : b ∈ bs) : ∃ a ∈ as, R a b := by
  induction h with
  | nil => simp at hb
  | cons h1 h2 ih =>
    rcases List.mem_cons.mp hb with rfl | hb2
    · exact ⟨_, List.mem_cons_self _ _, h1⟩
    · obtain ⟨a, ha, har⟩ := ih hb2
      exact ⟨a, List.mem_cons_of_mem _ ha, har⟩

theorem startsWith_append_self (p t : Chars) : startsWith p (p ++ t) = true := by
  induction p with
  | nil => rfl
  | cons c ps ih => simpa [startsWith] using ih

theorem scanLines_nil (setFlag : Bool) (cfg : Config) (conf : Bool) :
    scanLines setFlag [] cfg conf = .ok (cfg, conf) := rfl

theorem scanLines_cons (setFlag : Bool) (line : Chars) (rest : List Chars)
    (cfg : Config) (conf : Bool) :
    scanLines setFlag (line :: rest) cfg conf =
      if startsWith optionKeyStr line then
        match parseOptions (((pyStrip line).drop (optionKeyStr.length + 2)).dropLast) with
        | .error e => .error e
        | .ok cfg' => scanLines setFlag rest cfg' (conf || setFlag)
      else scanLines setFlag rest cfg conf := rfl

theorem scanLines_cons_nomatch (setFlag : Bool) (line : Chars) (rest : List Chars)
    (cfg : Config) (conf : Bool) (h : startsWith optionKeyStr line = false) :
    scanLines setFlag (line :: rest) cfg conf = scanLines setFlag rest cfg conf := by
  rw [scanLines_cons, if_neg (by simp [h])]

theorem scanLines_cons_match (setFlag : Bool) (line : Chars) (rest : List Chars)
    (cfg : Config) (conf : Bool) (cfg' : Config)
    (h : startsWith optionKeyStr line = true)
    (hp : parseOptions (((pyStrip line).drop (optionKeyStr.length + 2)).dropLast) =
      .ok cfg') :
    scanLines setFlag (line :: rest) cfg conf =
      scanLines setFlag rest cfg' (conf || setFlag) := by
  rw [scanLines_cons, if_pos (by simp [h]), hp]

theorem pyUnivNewlines_id (l : Chars) (h : ∀ c ∈ l, c ≠ '\r') :
    pyUnivNewlines l = l := by
  unfold pyUnivNewlines
  induction l with
  | nil => rfl
  | cons c rest ih =>
    have hc := h c (List.mem_cons_self _ _)
    have e1 : pyUnivNewlinesAux false (c :: rest) =
        if c = '\r' then '\n' :: pyUnivNewlinesAux true rest
        else if c = '\n' then '\n' :: pyUnivNewlinesAux false rest
        else c :: pyUnivNewlinesAux false rest := rfl
    rw [e1, if_neg hc]
    have ih2 := ih (fun x hx => h x (List.mem_cons_of_mem _ hx))
    by_cases hn : c = '\n'
    · rw [if_pos hn, ih2, hn]
    · rw [if_neg hn, ih2]

theorem load_some (content dflt : Chars) :
    load (some content) dflt =
      match scanLines true (pyReadLines content) [] false with
      | .error e => .error e
      | .ok (cfg, configured) =>
        if configured then .ok (cfg, true)
        else
          match scanLines false (pyReadLines dflt) cfg false with
          | .error e => .error e
          | .ok (cfg', _) => .ok (cfg', false) := rfl

theorem stripEnvelope_line2 (J : Chars) :
    ((pyStrip (optionKeyStr ++ ('=' :: '(' :: (J ++ [')'])))).drop
      (optionKeyStr.length + 2)).dropLast = J := by
  have hstrip : pyStrip (optionKeyStr ++ ('=' :: '(' :: (J ++ [')']))) =
      optionKeyStr ++ ('=' :: '(' :: (J ++ [')'])) := by
    apply pyStrip_id _ 'O' ')'
    · rfl
    · rw [show (optionKeyStr ++ ('=' :: '(' :: (J ++ [')'])) : Chars) =
        (optionKeyStr ++ ('=' :: '(' :: J)) ++ [')'] by simp]
      exact List.getLast?_concat _
    · decide
    · decide
  rw [hstrip]
  rw [show (optionKeyStr ++ ('=' :: '(' :: (J ++ [')'])) : Chars) =
      (optionKeyStr ++ ['=', '(']) ++ (J ++ [')']) by simp]
  rw [List.drop_left' (by simp)]
  rw [show (J ++ [')'] : Chars).dropLast = J from List.dropLast_concat]

theorem save_clean (fstr : Chars → Chars) (cfg : Config) (hC : CleanCfg cfg) :
    ∃ tokens, cfg.mapM (renderEntry fstr) = .ok tokens ∧
      save fstr cfg = .ok (('[' :: header ++ [']']) ++ ('\n' ::
        ((optionKeyStr ++ ('=' :: '(' :: (pyJoin ',' tokens ++ [')']))) ++
          ('\n' :: [])))) ∧
      (∀ c ∈ pyJoin ',' tokens, c ≠ '\n' ∧ c ≠ '\r') := by
  obtain ⟨tokens, htok, hfa⟩ := mapM_renderEntry_clean fstr cfg hC.2
  refine ⟨tokens, htok, ?_, ?_⟩
  · unfold save
    rw [htok]
    simp
  · intro c hc
    rcases mem_pyJoin ',' tokens c hc with rfl | ⟨t, ht, hct⟩
    · decide
    · obtain ⟨e, _, hentry⟩ := forall₂_mem_right hfa ht
      obtain ⟨k, v, _, _, rfl, _, _, hnlt, _⟩ := hentry
      exact hnlt c hct

theorem load_saved (fstr : Chars → Chars) (cfg : Config) (hC : CleanCfg cfg)
    (content : Chars) (dflt : Chars) (hs : save fstr cfg = .ok content) :
    load (some content) dflt = .ok (cfg, true) := by
  obtain ⟨tokens, htok, hsave, hnl⟩ := save_clean fstr cfg hC
  rw [hs] at hsave
  obtain rfl : content = ('[' :: header ++ [']']) ++ ('\n' ::
      ((optionKeyStr ++ ('=' :: '(' :: (pyJoin ',' tokens ++ [')']))) ++
        ('\n' :: []))) :=
    Except.ok.inj hsave
  have hnoCR : ∀ c ∈ (('[' :: header ++ [']']) ++ ('\n' ::
      ((optionKeyStr ++ ('=' :: '(' :: (pyJoin ',' tokens ++ [')']))) ++
        ('\n' :: [])))), c ≠ '\r' := by
    intro c hc
    rcases List.mem_append.mp hc with h1 | h1
    · exact (by decide : ∀ x ∈ ('[' :: header ++ [']'] : Chars), x ≠ '\r') c h1
    rcases List.mem_cons.mp h1 with rfl | h2
    · decide
    rcases List.mem_append.mp h2 with h3 | h3
    · rcases (by simpa using h3 :
          c ∈ optionKeyStr ∨ c = '=' ∨ c = '(' ∨ c ∈ pyJoin ',' tokens ∨ c = ')')
        with h4 | h4 | h4 | h4 | h4
      · exact (by decide : ∀ x ∈ optionKeyStr, x ≠ '\r') c h4
      · rw [h4]; decide
      · rw [h4]; decide
      · exact (hnl c h4).2
      · rw [h4]; decide
    · have : c = '\n' := by simpa using h3
      rw [this]; decide
  have hlines : pyReadLines (('[' :: header ++ [']']) ++ ('\n' ::
      ((optionKeyStr ++ ('=' :: '(' :: (pyJoin ',' tokens ++ [')']))) ++
        ('\n' :: [])))) =
      [('[' :: header ++ [']']),
       (optionKeyStr ++ ('=' :: '(' :: (pyJoin ',' tokens ++ [')']))), []] := by
    unfold pyReadLines
    rw [pyUnivNewlines_id _ hnoCR]
    rw [pySplit_append '\n' _ _ (by decide)]
    rw [pySplit_append '\n' _ _ ?h2]
    · rfl
    · have hOK : ∀ x ∈ optionKeyStr, x ≠ '\n' := by decide
      intro c hc
      rcases (by simpa using hc :
          c ∈ optionKeyStr ∨ c = '=' ∨ c = '(' ∨ c ∈ pyJoin ',' tokens ∨ c = ')')
        with h1 | h1 | h1 | h1 | h1
      · exact hOK c h1
      · rw [h1]; decide
      · rw [h1]; decide
      · exact (hnl c h1).1
      · rw [h1]; decide
  have hparse : parseOptions (pyJoin ',' tokens) = .ok cfg :=
    parseOptions_render fstr cfg hC tokens htok
  rw [load_some, hlines]
  rw [scanLines_cons_nomatch _ _ _ _ _ (by decide)]
  rw [scanLines_cons_match _ _ _ _ _ cfg
    (startsWith_append_self optionKeyStr ('=' :: '(' :: (pyJoin ',' tokens ++ [')'])))
    (by rw [stripEnvelope_line2]; exact hparse)]
  rw [scanLines_cons_nomatch _ _ _ _ _ (by decide), scanLines_nil]
  rfl

theorem dinsert_clean (cfg : Config) (k : Chars) (tv : String × PyObj)
    (hC : CleanCfg cfg) (hk : cleanKey k = true) (hv : cleanVal tv.1 tv.2 = true) :
    CleanCfg (dinsert cfg (some k) tv) := by
  have hnew : cleanEntry (some k, tv) = true := by
    unfold cleanEntry
    rw [Bool.and_eq_true]
    exact ⟨hk, hv⟩
  constructor
  · rw [dinsert_keys]
    split
    · exact hC.1
    · rename_i hnot
      rw [List.nodup_append]
      refine ⟨hC.1, List.nodup_singleton ((some k : Option Chars)), ?_⟩
      intro a ha hb
      have hak : a = some k := List.mem_singleton.mp hb
      subst hak
      exact hnot ha
  · intro e he
    unfold dinsert at he
    split at he
    · obtain ⟨p, hp, rfl⟩ := List.mem_map.mp he
      split
      · exact hnew
      · exact hC.2 p hp
    · rcases List.mem_append.mp he with h1 | h1
      · exact hC.2 e h1
      · have : e = (some k, tv) := by simpa using h1
        rw [this]
        exact hnew

/-! ## Lemmas: inverting `set`, and error classification -/

theorem set_ok_inv (fstr : Chars → Chars) (cfg : Config) (k : Chars) (tag : String)
    (val : PyObj) (cfg' : Config) (content : Chars)
    (h : set fstr cfg k tag val = .ok (cfg', content)) :
    ∃ val', cfg' = dinsert cfg (some k) (tag, val') ∧
      save fstr cfg' = .ok content ∧
      ((tag = "string" ∧ ∃ s, val = .pyStr s ∧
        val' = .pyStr (s.filter (fun c => c ≠ '"'))) ∨
       (tag ≠ "string" ∧ val' = val)) := by
  unfold set at h
  by_cases hrec : recognizedTypes.contains tag = true
  · rw [if_neg (by rw [hrec]; simp)] at h
    by_cases hstr : tag = "string"
    · rw [if_pos hstr] at h
      cases val with
      | pyStr s =>
        have h2 : (match save fstr (dinsert cfg (some k) (tag,
            PyObj.pyStr (s.filter (fun c => c ≠ '"')))) with
          | Except.error e => Except.error e
          | Except.ok c => Except.ok ((dinsert cfg (some k) (tag,
              PyObj.pyStr (s.filter (fun c => c ≠ '"')))), c)) =
            Except.ok (cfg', content) := h
        cases hsave : save fstr (dinsert cfg (some k) (tag,
            PyObj.pyStr (s.filter (fun c => c ≠ '"')))) with
        | error e => rw [hsave] at h2; exact absurd h2 (by simp)
        | ok c =>
          rw [hsave] at h2
          have hpair := Except.ok.inj h2
          have h1 := congrArg Prod.fst hpair
          have hcnt := congrArg Prod.snd hpair
          simp only at h1 hcnt
          exact ⟨PyObj.pyStr (s.filter (fun c => c ≠ '"')), h1.symm,
            by rw [← h1, ← hcnt]; exact hsave, Or.inl ⟨hstr, s, rfl, rfl⟩⟩
      | pyBool b => exact absurd h (by simp)
      | pyInt n => exact absurd h (by simp)
      | pyFloat r => exact absurd h (by simp)
      | pyList xs => exact absurd h (by simp)
    · rw [if_neg hstr] at h
      have h2 : (match save fstr (dinsert cfg (some k) (tag, val)) with
        | Except.error e => Except.error e
        | Except.ok c => Except.ok ((dinsert cfg (some k) (tag, val)), c)) =
          Except.ok (cfg', content) := h
      cases hsave : save fstr (dinsert cfg (some k) (tag, val)) with
      | error e => rw [hsave] at h2; exact absurd h2 (by simp)
      | ok c =>
        rw [hsave] at h2
        have hpair := Except.ok.inj h2
        have h1 := congrArg Prod.fst hpair
        have hcnt := congrArg Prod.snd hpair
        simp only at h1 hcnt
        exact ⟨val, h1.symm, by rw [← h1, ← hcnt]; exact hsave, Or.inr ⟨hstr, rfl⟩⟩
  · have hrecf : recognizedTypes.contains tag = false := by
      cases hcc : recognizedTypes.contains tag
      · rfl
      · exact absurd hcc hrec
    rw [if_pos (by rw [hrecf]; rfl)] at h
    exact absurd h (by simp)

theorem set_clean_ok (fstr : Chars → Chars) (cfg : Config) (k : Chars) (tag : String)
    (val : PyObj) (hC : CleanCfg cfg) (hk : cleanKey k = true)
    (hv : cleanVal tag val = true) :
    ∃ content, set fstr cfg k tag val = .ok (dinsert cfg (some k) (tag, val), content) ∧
      save fstr (dinsert cfg (some k) (tag, val)) = .ok content := by
  have hC' := dinsert_clean cfg k (tag, val) hC hk hv
  obtain ⟨tokens, htok, hsave, _⟩ := save_clean fstr _ hC'
  refine ⟨_, ?_, hsave⟩
  unfold set
  rcases cleanVal_cases tag val hv with
    ⟨rfl, b, rfl⟩ | ⟨rfl, n, rfl, hn⟩ | ⟨rfl, sv, rfl, hsq⟩ | ⟨rfl, xs, rfl, _, _⟩ |
    ⟨rfl, sv, rfl, _, _, _, _, _, _⟩
  · rw [if_neg (by decide), if_neg (by decide)]
    show (match save fstr (dinsert cfg (some k) ("bool", PyObj.pyBool b)) with
      | Except.error e => Except.error e
      | Except.ok c =>
        Except.ok ((dinsert cfg (some k) ("bool", PyObj.pyBool b)), c)) = _
    rw [hsave]
  · rw [if_neg (by decide), if_neg (by decide)]
    show (match save fstr (dinsert cfg (some k) ("int", PyObj.pyInt n)) with
      | Except.error e => Except.error e
      | Except.ok c =>
        Except.ok ((dinsert cfg (some k) ("int", PyObj.pyInt n)), c)) = _
    rw [hsave]
  · rw [if_neg (by decide), if_pos rfl]
    have hfil : sv.filter (fun c => c ≠ '"') = sv :=
      List.filter_eq_self.mpr (fun a ha => by simp [(hsq a ha).1])
    show (match save fstr (dinsert cfg (some k) ("string",
        PyObj.pyStr (sv.filter (fun c => c ≠ '"')))) with
      | Except.error e => Except.error e
      | Except.ok c =>
        Except.ok ((dinsert cfg (some k) ("string",
          PyObj.pyStr (sv.filter (fun c => c ≠ '"')))), c)) = _
    rw [hfil, hsave]
  · rw [if_neg (by decide), if_neg (by decide)]
    show (match save fstr (dinsert cfg (some k) ("group", PyObj.pyList xs)) with
      | Except.error e => Except.error e
      | Except.ok c =>
        Except.ok ((dinsert cfg (some k) ("group", PyObj.pyList xs)), c)) = _
    rw [hsave]
  · rw [if_neg (by decide), if_neg (by decide)]
    show (match save fstr (dinsert cfg (some k) ("literal", PyObj.pyStr sv)) with
      | Except.error e => Except.error e
      | Except.ok c =>
        Except.ok ((dinsert cfg (some k) ("literal", PyObj.pyStr sv)), c)) = _
    rw [hsave]

theorem classify_error_cases (v : Chars) (e : PErr) (h : classify v = .error e) :
    e = .indexError ∨ e = .valueError := by
  unfold classify at h
  split at h
  · exact absurd h (by simp)
  split at h
  · exact absurd h (by simp)
  split at h
  · exact absurd h (by simp)
  split at h
  · exact Or.inl (Except.error.inj h).symm
  split at h
  · exact absurd h (by simp)
  split at h
  · exact absurd h (by simp)
  split at h
  · split at h
    · exact absurd h (by simp)
    · exact Or.inr (Except.error.inj h).symm
  · exact absurd h (by simp)

theorem foldlM_classifyInto_error (l : List (Option Chars × Chars)) (acc : Config)
    (e : PErr) (h : l.foldlM classifyInto acc = .error e) :
    ∃ kv ∈ l, classify kv.2 = .error e := by
  induction l generalizing acc with
  | nil =>
    rw [List.foldlM_nil] at h
    exact Except.noConfusion (h : (Except.ok acc : Except PErr Config) = .error e)
  | cons kv rest ih =>
    rw [List.foldlM_cons] at h
    cases hc : classify kv.2 with
    | error e' =>
      have hstep : classifyInto acc kv = .error e' := by
        unfold classifyInto
        rw [hc]
      rw [hstep] at h
      have he : e' = e :=
        Except.error.inj (h : (Except.error e' : Except PErr Config) = .error e)
      exact ⟨kv, List.mem_cons_self kv rest, by rw [hc, he]⟩
    | ok tv =>
      have hstep : classifyInto acc kv = .ok (dinsert acc kv.1 tv) := by
        unfold classifyInto
        rw [hc]
      rw [hstep] at h
      obtain ⟨kv', hkv', hcls⟩ := ih (dinsert acc kv.1 tv)
        (h : List.foldlM classifyInto (dinsert acc kv.1 tv) rest = .error e)
      exact ⟨kv', List.mem_cons_of_mem kv hkv', hcls⟩

theorem foldlM_classifyInto_ok (l : List (Option Chars × Chars)) (acc : Config)
    (res : Config) (h : l.foldlM classifyInto acc = .ok res) :
    ∀ kv ∈ l, ∃ tv, classify kv.2 = .ok tv := by
  induction l generalizing acc with
  | nil => intro kv hkv; simp at hkv
  | cons kv rest ih =>
    rw [List.foldlM_cons] at h
    cases hc : classify kv.2 with
    | error e' =>
      have hstep : classifyInto acc kv = .error e' := by
        unfold classifyInto
        rw [hc]
      rw [hstep] at h
      exact Except.noConfusion (h : (Except.error e' : Except PErr Config) = .ok res)
    | ok tv =>
      have hstep : classifyInto acc kv = .ok (dinsert acc kv.1 tv) := by
        unfold classifyInto
        rw [hc]
      rw [hstep] at h
      intro kv' hkv'
      rcases List.mem_cons.mp hkv' with rfl | hkv2
      · exact ⟨tv, hc⟩
      · exact ih (dinsert acc kv.1 tv)
          (h : List.foldlM classifyInto (dinsert acc kv.1 tv) rest = .ok res) kv' hkv2

theorem mapM_renderEntry_shape (fstr : Chars → Chars) (cfg : Config)
    (tokens : List Chars) (h : cfg.mapM (renderEntry fstr) = .ok tokens) :
    List.Forall₂ (fun (e : Option Chars × (String × PyObj)) t =>
      ∃ v, renderValue fstr e.2.1 e.2.2 = .ok v ∧ t = keyToStr e.1 ++ ('=' :: v))
      cfg tokens := by
  induction cfg generalizing tokens with
  | nil =>
    rw [List.mapM_nil] at h
    obtain rfl : ([] : List Chars) = tokens :=
      Except.ok.inj (h : (Except.ok [] : Except PErr (List Chars)) = .ok tokens)
    exact .nil
  | cons e es ih =>
    rw [List.mapM_cons] at h
    cases hv : renderValue fstr e.2.1 e.2.2 with
    | error er =>
      have hre : renderEntry fstr e = .error er := by
        unfold renderEntry
        rw [hv]
      rw [hre] at h
      exact Except.noConfusion
        (h : (Except.error er : Except PErr (List Chars)) = .ok tokens)
    | ok v =>
      have hre : renderEntry fstr e = .ok (keyToStr e.1 ++ ('=' :: v)) := by
        unfold renderEntry
        rw [hv]
      rw [hre] at h
      cases hrest : es.mapM (renderEntry fstr) with
      | error er =>
        rw [hrest] at h
        exact Except.noConfusion
          (h : (Except.error er : Except PErr (List Chars)) = .ok tokens)
      | ok ts =>
        rw [hrest] at h
        obtain rfl : (keyToStr e.1 ++ ('=' :: v)) :: ts = tokens :=
          Except.ok.inj (h : (Except.ok ((keyToStr e.1 ++ ('=' :: v)) :: ts) :
            Except PErr (List Chars)) = .ok tokens)
        exact .cons ⟨v, hv, rfl⟩ (ih ts hrest)

theorem contains_quote_filter (l : Chars) :
    ((l.filter (fun c => c ≠ '"')).contains '"') = false := by
  apply contains_eq_false_of_forall
  intro c hc
  have := List.of_mem_filter hc
  simpa using this

/-! ## Claims

Each claim of the specification is settled by one theorem below
(with a witness when the theorem carries hypotheses, and a
counterexample where the claim fails on the code). -/

/-- C2, counterexample: the claim states that an input with an
unterminated quote fails with a hard `UnterminatedGroup` error and
produces no partial store.  On the code, `K="unterminated` parses
successfully: the pending pair is committed at end of input and
classified as a string. -/
theorem claim2_counterexample :
    parseOptions "K=\"unterminated".data =
      .ok [(some "K".data, ("string", .pyStr "unterminated".data))] := by
  decide

/-- C2, amended: no unterminated-group error path exists in
`_parse_options`; an unclosed quote or parenthesis is silently committed
at end of input, and the only parse failures are the classifier's
`IndexError` on an empty committed value and `ValueError` on an invalid
float literal. -/
theorem claim2_amended (s : Chars) (e : PErr) (h : parseOptions s = .error e) :
    e = .indexError ∨ e = .valueError := by
  obtain ⟨kv, _, hcls⟩ := foldlM_classifyInto_error (lexValues s) [] e
    (h : (lexValues s).foldlM classifyInto [] = .error e)
  exact classify_error_cases kv.2 e hcls

theorem claim2_amended_witness :
    PErr.indexError = PErr.indexError ∨ PErr.indexError = PErr.valueError :=
  claim2_amended "K=".data PErr.indexError (by decide)

/-- C4: `set` with a type tag outside the fixed recognized set fails
with `ValueError` (`InvalidType`); the error is raised before any
mutation, quote-stripping or `save`, so no new store or file content is
produced. -/
theorem claim4_invalid_type (fstr : Chars → Chars) (cfg : Config) (k : Chars)
    (tag : String) (val : PyObj) (h : recognizedTypes.contains tag = false) :
    set fstr cfg k tag val = .error .valueError := by
  unfold set
  rw [if_pos (by rw [h]; rfl)]

theorem claim4_witness :
    set fstrId [] "K".data "str" (.pyBool true) = .error .valueError :=
  claim4_invalid_type fstrId [] "K".data "str" (.pyBool true) (by decide)

set_option maxRecDepth 4096 in
/-- C5: parsing `A=True,B=42,C="hi, there",D=(1,2,3)` yields exactly the
four entries `A=Bool(true)`, `B=Int(42)`, `C=Str("hi, there")` and
`D=Group(["1","2","3"])`; the comma inside the quoted value does not
split the `C` entry. -/
theorem claim5_example_parse :
    parseOptions "A=True,B=42,C=\"hi, there\",D=(1,2,3)".data =
      .ok [(some "A".data, ("bool", .pyBool true)),
           (some "B".data, ("int", .pyInt 42)),
           (some "C".data, ("string", .pyStr "hi, there".data)),
           (some "D".data, ("group", .pyList ["1".data, "2".data, "3".data]))] := by
  decide

/-- C6: a successful `set` preserves the insertion order of keys
(an overwritten key keeps its original position, a new key appends at
the end), and serialization emits one `key=value` token per entry in
exactly the store's order. -/
theorem claim6_order (fstr : Chars → Chars) (cfg : Config) (k : Chars) (tag : String)
    (val : PyObj) (cfg' : Config) (content : Chars)
    (hset : set fstr cfg k tag val = .ok (cfg', content)) :
    (((some k) ∈ cfg.map Prod.fst ∧ cfg'.map Prod.fst = cfg.map Prod.fst) ∨
     ((some k) ∉ cfg.map Prod.fst ∧
       cfg'.map Prod.fst = cfg.map Prod.fst ++ [some k])) ∧
    ∃ tokens, cfg'.mapM (renderEntry fstr) = .ok tokens ∧
      List.Forall₂ (fun (e : Option Chars × (String × PyObj)) t =>
        ∃ v, renderValue fstr e.2.1 e.2.2 = .ok v ∧ t = keyToStr e.1 ++ ('=' :: v))
        cfg' tokens := by
  obtain ⟨val', rfl, hsave, _⟩ := set_ok_inv fstr cfg k tag val cfg' content hset
  constructor
  · by_cases hmem : (some k) ∈ cfg.map Prod.fst
    · exact Or.inl ⟨hmem, by rw [dinsert_keys, if_pos hmem]⟩
    · exact Or.inr ⟨hmem, by rw [dinsert_keys, if_neg hmem]⟩
  · unfold save at hsave
    cases htok : (dinsert cfg (some k) (tag, val')).mapM (renderEntry fstr) with
    | error e =>
      rw [htok] at hsave
      exact absurd hsave (by simp)
    | ok tokens => exact ⟨tokens, rfl, mapM_renderEntry_shape fstr _ tokens htok⟩

set_option maxRecDepth 4096 in
theorem claim6_witness :
    (((some "B".data) ∈ [(some "A".data, ("int", PyObj.pyInt 1))].map Prod.fst ∧
      [(some "A".data, ("int", PyObj.pyInt 1)),
       (some "B".data, ("int", PyObj.pyInt 7))].map Prod.fst =
        [(some "A".data, ("int", PyObj.pyInt 1))].map Prod.fst) ∨
     ((some "B".data) ∉ [(some "A".data, ("int", PyObj.pyInt 1))].map Prod.fst ∧
      [(some "A".data, ("int", PyObj.pyInt 1)),
       (some "B".data, ("int", PyObj.pyInt 7))].map Prod.fst =
        [(some "A".data, ("int", PyObj.pyInt 1))].map Prod.fst ++ [some "B".data])) ∧
    ∃ tokens,
      [(some "A".data, ("int", PyObj.pyInt 1)),
       (some "B".data, ("int", PyObj.pyInt 7))].mapM (renderEntry fstrId) =
        .ok tokens ∧
      List.Forall₂ (fun (e : Option Chars × (String × PyObj)) t =>
        ∃ v, renderValue fstrId e.2.1 e.2.2 = .ok v ∧ t = keyToStr e.1 ++ ('=' :: v))
        [(some "A".data, ("int", PyObj.pyInt 1)),
         (some "B".data, ("int", PyObj.pyInt 7))] tokens :=
  claim6_order fstrId [(some "A".data, ("int", PyObj.pyInt 1))] "B".data "int"
    (.pyInt 7)
    [(some "A".data, ("int", PyObj.pyInt 1)), (some "B".data, ("int", PyObj.pyInt 7))]
    "[/Script/Pal.PalGameWorldSettings]\nOptionSettings=(A=1,B=7)\n".data
    (by decide)

/-- C7, counterexample: the claim states that a non-boolean raw value
with a leading `-` falls through to Literal.  The value `-1.5` instead
classifies as Float (the `.`-rule applies before the final literal
fallback). -/
theorem claim7_counterexample :
    classify "-1.5".data = .ok ("float", .pyFloat "-1.5".data) ∧
    classify "-1.5".data ≠ .ok ("literal", .pyStr "-1.5".data) := by
  exact ⟨by decide, by decide⟩

/-- C7, amended: for a non-boolean raw value, an all-decimal-digit
string classifies as Int carrying `int(value)`, and a leading `-` never
classifies as Int; when the value additionally contains no `.`, it
falls through to Literal. -/
theorem claim7_amended (val : Chars)
    (h1 : pyLower val ≠ "true".data) (h2 : pyLower val ≠ "false".data) :
    (pyIsDigit val = true → classify val = .ok ("int", .pyInt (strToNat val))) ∧
    (val.head? = some '-' → val.contains '.' = false →
      classify val = .ok ("literal", .pyStr val)) := by
  constructor
  · intro hd
    unfold classify
    rw [if_neg h1, if_neg h2, if_pos hd]
  · intro hh hdot
    obtain ⟨t, rfl⟩ : ∃ t, val = '-' :: t := by
      cases val with
      | nil => exact absurd hh (by simp)
      | cons c t => exact ⟨t, by rw [show c = '-' from by simpa using hh]⟩
    rw [classify_cons_shape '-' t h1 h2 (pyIsDigit_head_false _ _ (by decide))]
    rw [if_neg (by decide), if_neg (by decide),
      if_neg (by rw [hdot]; exact Bool.false_ne_true)]

theorem claim7_witness : classify "-5".data = .ok ("literal", .pyStr "-5".data) :=
  (claim7_amended "-5".data (by decide) (by decide)).2 rfl (by decide)

/-- C8, counterexample: the claim states that every raw value reaching
the `.`-rule classifies successfully as Float.  The value `1.2.3`
contains a `.` and reaches that rule, but `float('1.2.3')` raises
`ValueError`, so classification fails. -/
theorem claim8_counterexample :
    "1.2.3".data.contains '.' = true ∧
    classify "1.2.3".data = .error .valueError := by
  exact ⟨by decide, by decide⟩

/-- C8, amended: a raw value that does not match the bool, all-digits,
leading-quote or leading-parenthesis rules, contains a `.`, and is a
valid `float()` literal, classifies as Float; an invalid literal
instead raises `ValueError`. -/
theorem claim8_amended (val : Chars) (c : Char) (t : Chars) (hval : val = c :: t)
    (h1 : pyLower val ≠ "true".data) (h2 : pyLower val ≠ "false".data)
    (h3 : pyIsDigit val = false) (h4 : c ≠ '"') (h5 : c ≠ '(')
    (hdot : val.contains '.' = true) (h6 : pyFloatAccepts val = true) :
    classify val = .ok ("float", .pyFloat val) := by
  subst hval
  rw [classify_cons_shape c t h1 h2 h3, if_neg h4, if_neg h5, if_pos hdot, if_pos h6]

theorem claim8_witness : classify "1.5".data = .ok ("float", .pyFloat "1.5".data) :=
  claim8_amended "1.5".data '1' ".5".data rfl (by decide) (by decide) (by decide)
    (by decide) (by decide) (by decide) (by decide)

/-- C9: whenever the lexer commits a pair whose raw value is the empty
string (as in `K=` or `K=1,`), parsing raises an exception instead of
producing a store: the classifier indexes `val[0]` on the empty string,
so it is not total on empty raw values. -/
theorem claim9_empty_value (options : Chars) (k : Option Chars)
    (h : (k, ([] : Chars)) ∈ lexValues options) :
    ∃ e, parseOptions options = .error e := by
  cases hp : parseOptions options with
  | error e => exact ⟨e, rfl⟩
  | ok res =>
    obtain ⟨tv, htv⟩ := foldlM_classifyInto_ok (lexValues options) [] res
      (hp : (lexValues options).foldlM classifyInto [] = .ok res) (k, []) h
    exact Except.noConfusion
      (htv : (Except.error PErr.indexError : Except PErr (String × PyObj)) = .ok tv)

theorem claim9_witness : ∃ e, parseOptions "K=".data = .error e :=
  claim9_empty_value "K=".data (some "K".data) (by decide)

/-- C10: `set(key, 'string', v)` stores not `v` itself but `v` with
every double-quote character removed (`v.replace('"', '')`), before
serializing; the stored value therefore never contains a `"`. -/
theorem claim10_string_strip (fstr : Chars → Chars) (cfg : Config) (k : Chars)
    (v : Chars) (cfg' : Config) (content : Chars)
    (hset : set fstr cfg k "string" (.pyStr v) = .ok (cfg', content)) :
    cfg' = dinsert cfg (some k) ("string", .pyStr (v.filter (fun c => c ≠ '"'))) ∧
    get cfg' k = some (.pyStr (v.filter (fun c => c ≠ '"'))) ∧
    ((v.filter (fun c => c ≠ '"')).contains '"') = false := by
  obtain ⟨val', rfl, _, hcase⟩ :=
    set_ok_inv fstr cfg k "string" (.pyStr v) cfg' content hset
  rcases hcase with ⟨_, s, hsv, hval'⟩ | ⟨hne, _⟩
  · obtain rfl : v = s := PyObj.pyStr.inj hsv
    subst hval'
    exact ⟨rfl, get_dinsert cfg k _, contains_quote_filter v⟩
  · exact absurd rfl hne

theorem claim10_witness :
    [(some "K".data, ("string", PyObj.pyStr "ab".data))] =
      dinsert [] (some "K".data)
        ("string", PyObj.pyStr ("a\"b".data.filter (fun c => c ≠ '"'))) ∧
    get [(some "K".data, ("string", PyObj.pyStr "ab".data))] "K".data =
      some (PyObj.pyStr ("a\"b".data.filter (fun c => c ≠ '"'))) ∧
    (("a\"b".data.filter (fun c => c ≠ '"')).contains '"') = false :=
  claim10_string_strip fstrId [] "K".data "a\"b".data
    [(some "K".data, ("string", PyObj.pyStr "ab".data))]
    "[/Script/Pal.PalGameWorldSettings]\nOptionSettings=(K=\"ab\")\n".data
    (by decide)

end PalConfig
